import Mathlib

/-!
# Nevanlinna analytic continuation: embedding of `nevanlinna.cpp` and `types.hpp`

The arbitrary-precision reals `real_mpt` are modelled by an exact field `K`
(every definition is computable and can be run with `K = ℚ`; finite `double`
inputs are dyadic rationals).  The source divides unguarded, and a quotient by
zero is not a number there; the field's value `x / 0 = 0` stands for nothing in
the code, so a result that depends on the value of a quotient is stated where
its divisor is non-zero.  The `assert` of `solve` is no error path: `solve` is the
build in which it aborts the process, `solve_ndebug` the build without it, and
the two agree on inputs of equal length.
-/

namespace Nevanlinna

/-! ## Arithmetic layer (`types.hpp`) -/

/-- The type `std::complex<real_mpt>` (called `complex_mpt` in `types.hpp` and
`complex_t` in the solver): a pair of reals `_real`, `_imag`. -/
structure complex_t (K : Type) where
  re : K
  im : K
deriving DecidableEq, Repr

namespace complex_t

variable {K : Type}

/-- Source `internal::complex_multiply` (types.hpp 49-56). -/
def complex_multiply [Field K] (lhs rhs : complex_t K) : complex_t K :=
  let a := lhs.re
  let b := lhs.im
  let c := rhs.re
  let d := rhs.im
  ⟨a * c - b * d, a * d + b * c⟩

/-- Source `internal::complex_divide` (types.hpp 58-68).  The two quotients by
`denom` are the field's: for `denom ≠ 0` the value is the source's, for
`denom = 0` the source divides by zero unguarded and has no number to return, so
a statement about the code holds only where `denom ≠ 0` is known. -/
def complex_divide [Field K] (lhs rhs : complex_t K) : complex_t K :=
  let a := lhs.re
  let b := lhs.im
  let c := rhs.re
  let d := rhs.im
  let denom := c * c + d * d
  let x := (a * c + b * d) / denom
  let y := (b * c - a * d) / denom
  ⟨x, y⟩

/-- Source `internal::complex_add` (types.hpp 70-77). -/
def complex_add [Field K] (lhs rhs : complex_t K) : complex_t K :=
  let a := lhs.re
  let b := lhs.im
  let c := rhs.re
  let d := rhs.im
  ⟨a + c, b + d⟩

/-- Source `internal::complex_sub` (types.hpp 79-86). -/
def complex_sub [Field K] (lhs rhs : complex_t K) : complex_t K :=
  let a := lhs.re
  let b := lhs.im
  let c := rhs.re
  let d := rhs.im
  ⟨a - c, b - d⟩

/-- Source unary `operator-` of `std::complex<real_mpt>` (types.hpp 199). -/
def neg [Field K] (x : complex_t K) : complex_t K := ⟨-x.re, -x.im⟩

/-- Source `std::conj` (types.hpp 276-278). -/
def conj [Field K] (x : complex_t K) : complex_t K := ⟨x.re, -x.im⟩

/-- Squared modulus `re*re + im*im`, the radicand of `std::abs` (types.hpp 274).
In exact arithmetic `abs x ≤ 1` holds exactly when `normSq x ≤ 1`. -/
def normSq [Field K] (x : complex_t K) : K := x.re * x.re + x.im * x.im

/-- Constructor `complex(real_t real)`: a real promoted to a complex number. -/
def ofReal [Field K] (r : K) : complex_t K := ⟨r, 0⟩

/-- The constant `I = complex_mpt{0., 1.}` (types.hpp 31). -/
def I [Field K] : complex_t K := ⟨0, 1⟩

/-- The constant `One = complex_mpt{1., 0.}` (types.hpp 32). -/
def One [Field K] : complex_t K := ⟨1, 0⟩

end complex_t

section instances
variable {K : Type} [Field K]

instance : Zero (complex_t K) := ⟨⟨0, 0⟩⟩
instance : One (complex_t K) := ⟨complex_t.One⟩
instance : Add (complex_t K) := ⟨complex_t.complex_add⟩
instance : Sub (complex_t K) := ⟨complex_t.complex_sub⟩
instance : Mul (complex_t K) := ⟨complex_t.complex_multiply⟩
instance : Div (complex_t K) := ⟨complex_t.complex_divide⟩
instance : Neg (complex_t K) := ⟨complex_t.neg⟩
instance : Inv (complex_t K) := ⟨fun x => complex_t.complex_divide complex_t.One x⟩
instance : Inhabited (complex_t K) := ⟨0⟩

end instances

namespace complex_t
variable {K : Type} [Field K]

/-- Source `internal::complex_multiply(const std::complex<U>&, V rhs)` (types.hpp 88-93). -/
def complex_multiply_scalar (lhs : complex_t K) (rhs : K) : complex_t K :=
  let a := lhs.re
  let b := lhs.im
  let c := rhs
  ⟨a * c, b * c⟩

/-- Source `internal::complex_divide(const std::complex<U>&, V rhs)` (types.hpp 95-102). -/
def complex_divide_scalar (lhs : complex_t K) (rhs : K) : complex_t K :=
  let a := lhs.re
  let b := lhs.im
  let c := rhs
  let x := a / c
  let y := b / c
  ⟨x, y⟩

/-- Source `internal::complex_divide(V lhs, const std::complex<U>&)` (types.hpp 104-113). -/
def scalar_divide_complex (lhs : K) (rhs : complex_t K) : complex_t K :=
  let a := lhs
  let c := rhs.re
  let d := rhs.im
  let denom := c * c + d * d
  let x := (a * c) / denom
  let y := -(a * d) / denom
  ⟨x, y⟩

/-- Source `internal::complex_add(const std::complex<U>&, V rhs)` (types.hpp 115-120). -/
def complex_add_scalar (lhs : complex_t K) (rhs : K) : complex_t K :=
  let a := lhs.re
  let b := lhs.im
  let c := rhs
  ⟨a + c, b⟩

/-- Source `internal::complex_sub(const std::complex<U>&, V rhs)` (types.hpp 122-127). -/
def complex_sub_scalar (lhs : complex_t K) (rhs : K) : complex_t K :=
  let a := lhs.re
  let b := lhs.im
  let c := rhs
  ⟨a - c, b⟩

/-- Source `operator-=(const complex<S>&)` (types.hpp 155-159): the new value of `*this`. -/
def operator_sub_assign (x rhs : complex_t K) : complex_t K := ⟨x.re - rhs.re, x.im - rhs.im⟩

/-- Source `operator+=(const complex<S>&)` (types.hpp 161-165). -/
def operator_add_assign (x rhs : complex_t K) : complex_t K := ⟨x.re + rhs.re, x.im + rhs.im⟩

/-- Source `operator*=(const complex<S>&)` (types.hpp 167-170): `*this = *this * rhs`. -/
def operator_mul_assign (x rhs : complex_t K) : complex_t K := x * rhs

/-- Source `operator/=(const complex<S>&)` (types.hpp 172-175): `*this = *this / rhs`. -/
def operator_div_assign (x rhs : complex_t K) : complex_t K := x / rhs

/-- Source `operator-=(const S&)` (types.hpp 177-180). -/
def operator_sub_assign_scalar (x : complex_t K) (rhs : K) : complex_t K := ⟨x.re - rhs, x.im⟩

/-- Source `operator+=(const S&)` (types.hpp 182-185). -/
def operator_add_assign_scalar (x : complex_t K) (rhs : K) : complex_t K := ⟨x.re + rhs, x.im⟩

/-- Source `operator*=(const S&)` (types.hpp 187-191). -/
def operator_mul_assign_scalar (x : complex_t K) (rhs : K) : complex_t K :=
  ⟨x.re * rhs, x.im * rhs⟩

/-- Source `operator/=(const S&)` (types.hpp 193-197). -/
def operator_div_assign_scalar (x : complex_t K) (rhs : K) : complex_t K :=
  ⟨x.re / rhs, x.im / rhs⟩

/-- Source `operator==(complex, complex)` (types.hpp 213-215). -/
def operator_eq [DecidableEq K] (x y : complex_t K) : Bool :=
  decide (x.re = y.re) && decide (x.im = y.im)

/-- Source `operator==(complex, const S&)` and its mirror (types.hpp 217-223). -/
def operator_eq_scalar [DecidableEq K] (x : complex_t K) (y : K) : Bool :=
  decide (x.re = y) && decide (x.im = 0)

/-- Source `std::abs` (types.hpp 274); `real_sqrt` is the square root of the real
backend. -/
def abs (real_sqrt : K → K) (x : complex_t K) : K :=
  real_sqrt (x.re * x.re + x.im * x.im)

/-- Source `std::polar` (types.hpp 280-286); `cos`, `sin` are the backend's. -/
def polar (cos sin : K → K) (rho arg : K) : complex_t K :=
  let x := cos arg
  let y := sin arg
  ⟨x * rho, y * rho⟩

/-- Source `std::arg` (types.hpp 288-292); `atan2` is the backend's. -/
def arg (atan2 : K → K → K) (x : complex_t K) : K := atan2 x.im x.re

/-- Source `std::sqrt` (types.hpp 294-296):
`polar(sqrt(abs(x)), arg(x) / 2)`. -/
def sqrt (real_sqrt cos sin : K → K) (atan2 : K → K → K) (x : complex_t K) : complex_t K :=
  polar cos sin (real_sqrt (abs real_sqrt x)) (arg atan2 x / 2)

end complex_t

/-! ## Matrices, containers and the solver state (`nevanlinna.cpp`) -/

/-- The type `matrix_t` (an Eigen matrix of `complex_t`); every matrix the solver
assigns is 2×2, stored here by its four entries `(i, j)`. -/
structure matrix_t (K : Type) where
  a00 : complex_t K
  a01 : complex_t K
  a10 : complex_t K
  a11 : complex_t K
deriving DecidableEq, Repr

namespace matrix_t
variable {K : Type} [Field K]

/-- Source `matrix_t::Identity(2, 2)`. -/
def Identity : matrix_t K := ⟨complex_t.One, 0, 0, complex_t.One⟩

/-- The value-initialised element `std::vector::resize` appends; it stands for
Eigen's unsized matrix and is overwritten by `Identity` before it is read. -/
def unsized : matrix_t K := ⟨0, 0, 0, 0⟩

/-- Matrix product used by `_abcds[k] *= prod` and `result *= prod`
(right multiplication `A = A * B`). -/
def mul (A B : matrix_t K) : matrix_t K :=
  ⟨A.a00 * B.a00 + A.a01 * B.a10, A.a00 * B.a01 + A.a01 * B.a11,
   A.a10 * B.a00 + A.a11 * B.a10, A.a10 * B.a01 + A.a11 * B.a11⟩

instance : Mul (matrix_t K) := ⟨mul⟩
instance : Inhabited (matrix_t K) := ⟨unsized⟩

end matrix_t

/-- Ways a call can fail. -/
inductive fault where
  /-- The `assert(mesh.shape(0) == data.shape(0))` of `solve` does not hold: the
  process is aborted. -/
  | assertion_failed
  /-- The exception `nevanlinna_error` with its message. -/
  | nevanlinna_error (what : String)
  /-- An index outside the bounds of the container it is applied to. -/
  | out_of_range
deriving DecidableEq, Repr

/-- Checked read `v[i]`. -/
def read {α : Type} (v : List α) (i : Nat) : Except fault α :=
  match v[i]? with
  | some x => .ok x
  | none => .error .out_of_range

/-- Checked write `v[i] = x`. -/
def write {α : Type} (v : List α) (i : Nat) (x : α) : Except fault (List α) :=
  if i < v.length then .ok (v.set i x) else .error .out_of_range

/-- Source `std::vector::resize(n)`: keeps the first `n` old elements and pads
with value-initialised ones. -/
def resize {α : Type} (v : List α) (n : Nat) (dflt : α) : List α :=
  v.take n ++ List.replicate (n - v.length) dflt

/-- The members `_phis`, `_abcds`, `_mesh` of `nevanlinna::solver`. -/
structure solver (K : Type) where
  _phis : List (complex_t K)
  _abcds : List (matrix_t K)
  _mesh : List (complex_t K)
deriving DecidableEq, Repr

section code
variable {K : Type} [Field K]

open complex_t (conj I ofReal) in
/-- Source `solver::mobius_trasformation` (nevanlinna.cpp 80-84). -/
def mobius_trasformation (data : List (complex_t K)) : List (complex_t K) :=
  data.map (fun d => (-d - I) / (-d + I))

/-- Initialisation loop of `solve` (nevanlinna.cpp 29-32), `n` iterations left
from index `k`. -/
def solve_init (mesh : List (complex_t K)) :
    Nat → Nat → solver K → Except fault (solver K)
  | 0, _, s => .ok s
  | n + 1, k, s => do
    let abcds ← write s._abcds k matrix_t.Identity
    let zk ← read mesh k
    let mesh' ← write s._mesh k zk
    solve_init mesh n (k + 1) { s with _abcds := abcds, _mesh := mesh' }

open complex_t (conj I ofReal) in
/-- Inner loop of `solve` (nevanlinna.cpp 35-39) for a fixed `j`, `n` iterations
left from index `k`.  `prod` is fully overwritten by the comma initialiser. -/
def solve_inner (j : Nat) : Nat → Nat → solver K → Except fault (solver K)
  | 0, _, s => .ok s
  | n + 1, k, s => do
    let zk ← read s._mesh k
    let zj ← read s._mesh j
    let phij ← read s._phis j
    let prod : matrix_t K :=
      ⟨(zk - zj) / (zk - conj zj), phij,
       conj phij * (zk - zj) / (zk - conj zj), ⟨1, 0⟩⟩
    let a ← read s._abcds k
    let abcds ← write s._abcds k (a * prod)
    solve_inner j n (k + 1) { s with _abcds := abcds }

/-- Outer loop of `solve` (nevanlinna.cpp 34-42), `n` iterations left from
index `j`; `M` is the number of samples. -/
def solve_outer (M : Nat) (mdata : List (complex_t K)) :
    Nat → Nat → solver K → Except fault (solver K)
  | 0, _, s => .ok s
  | n + 1, j, s => do
    let s1 ← solve_inner j (M - j) j s
    let a ← read s1._abcds (j + 1)
    let m ← read mdata (j + 1)
    let phis ← write s1._phis (j + 1) ((-a.a11 * m + a.a01) / (a.a10 * m - a.a00))
    solve_outer M mdata n (j + 1) { s1 with _phis := phis }

/-- Lines 23-43 of `solver::solve(mesh, data)`: what the call executes after the
`assert` of line 22, and the whole call where the `assert` is compiled out
(`NDEBUG`).  `M` is the length of `mesh` alone; the outcome of the call and the
solver state it leaves.  A fault inside the body is an access outside an array:
`mdata[0]` for empty `data`, or `mdata[j+1]` where `data` is shorter than `mesh`. -/
def solve_ndebug (s : solver K) (mesh data : List (complex_t K)) :
    Except fault Unit × solver K :=
  let M := mesh.length
  let s1 : solver K :=
    { _phis := resize s._phis M 0
      _abcds := resize s._abcds M matrix_t.unsized
      _mesh := resize s._mesh M 0 }
  let mdata := mobius_trasformation data
  let body : Except fault (solver K) := do
    let m0 ← read mdata 0
    let phis ← write s1._phis 0 m0
    let s2 ← solve_init mesh M 0 { s1 with _phis := phis }
    solve_outer M mdata (M - 1) 0 s2
  match body with
  | .ok s3 => (.ok (), s3)
  | .error e => (.error e, s1)

/-- Source `solver::solve(mesh, data)` (nevanlinna.cpp 21-44) with the `assert` of
line 22 enabled.  Where the lengths differ the `assert` aborts the process: the
call does not return, no error reaches the caller, and the second component only
records the members at the moment of the abort (nothing has been touched yet).
Where the lengths agree the call is `solve_ndebug`. -/
def solve (s : solver K) (mesh data : List (complex_t K)) :
    Except fault Unit × solver K :=
  if mesh.length ≠ data.length then (.error .assertion_failed, s)
  else solve_ndebug s mesh data

open complex_t (conj I ofReal) in
/-- Inner loop of `evaluate` (nevanlinna.cpp 64-68) at query point `z`; the
state is the scratch matrix `prod` and the accumulator `result`. -/
def evaluate_inner (s : solver K) (z : complex_t K) :
    Nat → Nat → matrix_t K → matrix_t K → Except fault (matrix_t K × matrix_t K)
  | 0, _, prod, result => .ok (prod, result)
  | n + 1, j, _, result => do
    let zj ← read s._mesh j
    let phij ← read s._phis j
    let prod : matrix_t K :=
      ⟨(z - zj) / (z - conj zj), phij,
       conj phij * ((z - zj) / (z - conj zj)), ⟨1, 0⟩⟩
    evaluate_inner s z n (j + 1) prod (result * prod)

open complex_t (conj I ofReal) in
/-- Outer loop of `evaluate` (nevanlinna.cpp 61-72).  `M_PI` is the constant of
`<cmath>`, taken as a parameter; `prod` is the scratch matrix declared before the
loop and carried from one query to the next. -/
def evaluate_outer (M_PI : K) (s : solver K) (grid : List (complex_t K)) (M : Nat) :
    Nat → Nat → matrix_t K → List K → Except fault (List K)
  | 0, _, _, results => .ok results
  | n + 1, i, prod, results => do
    let z ← read grid i
    let (prod', result) ← evaluate_inner s z M 0 prod matrix_t.Identity
    let param : complex_t K := ⟨0, 0⟩
    let theta := (result.a00 * param + result.a01) / (result.a10 * param + result.a11)
    let results' ← write results i (1 / M_PI * (I * (complex_t.One + theta) / (complex_t.One - theta)).im)
    evaluate_outer M_PI s grid M n (i + 1) prod' results'

/-- Source `solver::evaluate(complex grid)` (nevanlinna.cpp 52-74).  The final
narrowing `get_d()` is the identity in exact arithmetic; the scratch `prod(2, 2)`
and the `results` array start with value-initialised (zero) entries. -/
def evaluate (M_PI : K) (s : solver K) (grid : List (complex_t K)) :
    Except fault (List K) :=
  let M := s._phis.length
  if M = 0 then
    .error (.nevanlinna_error "Empty continuation data. Please run solve(...) first.")
  else
    evaluate_outer M_PI s grid M grid.length 0 matrix_t.unsized
      (List.replicate grid.length 0)

open complex_t (conj I ofReal) in
/-- Source `solver::evaluate(real grid, eta)` (nevanlinna.cpp 46-50):
`complex_grid = grid + eta*1i`. -/
def evaluate_eta (M_PI : K) (s : solver K) (grid : List K) (eta : K) :
    Except fault (List K) :=
  let complex_grid := grid.map (fun x => ofReal x + ofReal eta * I)
  evaluate M_PI s complex_grid

end code

/-- The part of the host object `triqs::gfs::gf<triqs::mesh::imfreq>` that
`solve(g_iw)` reads: the mesh points in iteration order (`to_point()`), the flag
`positive_only()` and the values `data()(j, 0, 0)`. -/
structure gf_imfreq (K : Type) where
  points : List (complex_t K)
  positive_only : Bool
  data : List (complex_t K)
deriving DecidableEq, Repr

section code_gf
variable {K : Type} [LinearOrderedField K]

/-- Loop of `solve(g_iw)` (nevanlinna.cpp 12-17) over the remaining mesh points,
with the counters `j`, `i` and the arrays `data`, `mesh` under construction. -/
def solve_gf_loop (g : gf_imfreq K) :
    List (complex_t K) → Nat → Nat → List (complex_t K) → List (complex_t K) →
      Except fault (List (complex_t K) × List (complex_t K))
  | [], _, _, data, mesh => .ok (data, mesh)
  | pt :: rest, j, i, data, mesh =>
    if pt.im < 0 then solve_gf_loop g rest (j + 1) i data mesh
    else do
      let d ← read g.data j
      let data' ← write data i d
      let mesh' ← write mesh i pt
      solve_gf_loop g rest (j + 1) (i + 1) data' mesh'

/-- The arrays `mesh`, `data` that `solve(g_iw)` builds before delegating
(nevanlinna.cpp 8-17); both are allocated with `N` entries. -/
def solve_gf_arrays (g : gf_imfreq K) :
    Except fault (List (complex_t K) × List (complex_t K)) :=
  let N := if g.positive_only then g.points.length else g.points.length / 2
  solve_gf_loop g g.points 0 0 (List.replicate N 0) (List.replicate N 0)

/-- Source `solver::solve(g_iw)` (nevanlinna.cpp 7-19). -/
def solve_gf (s : solver K) (g : gf_imfreq K) : Except fault Unit × solver K :=
  match solve_gf_arrays g with
  | .ok (data, mesh) => solve s mesh data
  | .error e => (.error e, s)

end code_gf

/-! ## The specification's formulas -/

section spec
variable {K : Type} [Field K]

open complex_t (conj I ofReal) in
/-- Spec 4.2: `mobius(d) = (−d − i) / (−d + i)`. -/
def mobius (d : complex_t K) : complex_t K := (-d - I) / (-d + I)

open complex_t (conj I ofReal) in
/-- Spec 4.4: the inverse Möbius map `θ ↦ i·(1+θ)/(1−θ)`. -/
def inverse_mobius (theta : complex_t K) : complex_t K := I * (1 + theta) / (1 - theta)

open complex_t (conj I ofReal) in
/-- Spec 4.3/4.4: elementary factor
`E(z) = [[(z−z_j)/(z−conj z_j), φ_j], [conj φ_j·(z−z_j)/(z−conj z_j), 1]]`. -/
def elementary_factor (z zj phij : complex_t K) : matrix_t K :=
  ⟨(z - zj) / (z - conj zj), phij, conj phij * ((z - zj) / (z - conj zj)), 1⟩

/-- Spec: the ordered right-product `E_0(z) · E_1(z) · … · E_{n-1}(z)` starting
from the identity, with `E_i` built from `z_i = zs[i]` and `φ_i = phis[i]`. -/
def ordered_product (phis zs : List (complex_t K)) (z : complex_t K) : Nat → matrix_t K
  | 0 => matrix_t.Identity
  | n + 1 => ordered_product phis zs z n * elementary_factor z (zs.getD n 0) (phis.getD n 0)

/-- Spec 4.3: `φ = (−P[1][1]·m + P[0][1]) / (P[1][0]·m − P[0][0])`. -/
def next_parameter (P : matrix_t K) (m : complex_t K) : complex_t K :=
  (-P.a11 * m + P.a01) / (P.a10 * m - P.a00)

/-- Spec 4.4: the value returned for a query point `z`,
`(1/π)·Im(i·(1+θ)/(1−θ))` with `θ = R[0][1]/R[1][1]`. -/
def spectral_value (M_PI : K) (phis zs : List (complex_t K)) (z : complex_t K) : K :=
  let R := ordered_product phis zs z phis.length
  1 / M_PI * (inverse_mobius (R.a01 / R.a11)).im

/-- Finite sum `f 0 + f 1 + … + f (n-1)`. -/
def sum_upto (f : Nat → complex_t K) : Nat → complex_t K
  | 0 => 0
  | n + 1 => sum_upto f n + f n

open complex_t (conj I ofReal) in
/-- The Pick matrix entry `(w_i − conj w_j) / (z_i − conj z_j)` with `w_k = −data_k`. -/
def pick_matrix (mesh data : List (complex_t K)) (i j : Nat) : complex_t K :=
  (-(data.getD i 0) - conj (-(data.getD j 0))) / (mesh.getD i 0 - conj (mesh.getD j 0))

open complex_t (conj I ofReal) in
/-- The Hermitian form `Σ_i Σ_j conj(c_i) · P_ij · c_j` over `i, j < n`. -/
def hermitian_form (n : Nat) (P : Nat → Nat → complex_t K) (c : Nat → complex_t K) :
    complex_t K :=
  sum_upto (fun i => sum_upto (fun j => conj (c i) * P i j * c j) n) n

end spec

section schur_defs
variable {K : Type} [Field K]

open complex_t (conj I) in
/-- The Pick kernel of disk-valued data `x` at nodes `z`:
`(1 - x_i·conj x_j) · i / (z_i - conj z_j)`. -/
def schur_kernel (z x : ℕ → complex_t K) (i j : ℕ) : complex_t K :=
  (1 - x i * conj (x j)) * (I / (z i - conj (z j)))

open complex_t (conj I) in
/-- Numerator and denominator of the parameter that `solve` derives for node `k`
from the first `t` elementary factors: `(-P11·m_k + P01, P10·m_k - P00)`. -/
def schur_pair (z m phi : ℕ → complex_t K) (k : ℕ) : ℕ → complex_t K × complex_t K
  | 0 => (-(m k), -1)
  | t + 1 =>
    ((schur_pair z m phi k t).1 - phi t * (schur_pair z m phi k t).2,
      (z k - z t) / (z k - conj (z t))
        * ((schur_pair z m phi k t).2 - conj (phi t) * (schur_pair z m phi k t).1))

/-- The second column of the tail product `E_{M-n}(z) ⋯ E_{M-1}(z)`, that is the
product applied to the vector `(0, 1)`: `(R01, R11)` of the last `n` factors. -/
def tail_vector (phis zs : List (complex_t K)) (z : complex_t K) (M : ℕ) :
    ℕ → complex_t K × complex_t K
  | 0 => (0, 1)
  | n + 1 =>
    ((elementary_factor z (zs.getD (M - (n + 1)) 0) (phis.getD (M - (n + 1)) 0)).a00
          * (tail_vector phis zs z M n).1
        + (elementary_factor z (zs.getD (M - (n + 1)) 0) (phis.getD (M - (n + 1)) 0)).a01
          * (tail_vector phis zs z M n).2,
      (elementary_factor z (zs.getD (M - (n + 1)) 0) (phis.getD (M - (n + 1)) 0)).a10
          * (tail_vector phis zs z M n).1
        + (elementary_factor z (zs.getD (M - (n + 1)) 0) (phis.getD (M - (n + 1)) 0)).a11
          * (tail_vector phis zs z M n).2)

/-- Determinant of a 2×2 matrix. -/
def matrix_t.det (A : matrix_t K) : complex_t K := A.a00 * A.a11 - A.a01 * A.a10

end schur_defs

/-- Pick criterion: the `n × n` matrix `P` is positive semi-definite. -/
def positive_semidefinite {K : Type} [LinearOrderedField K] (n : Nat)
    (P : Nat → Nat → complex_t K) : Prop :=
  ∀ c : Nat → complex_t K, 0 ≤ (hermitian_form n P c).re

/-- A solved state with `M` nodes: the three parallel arrays have length `M`. -/
def solver.solved {K : Type} (s : solver K) (M : Nat) : Prop :=
  s._phis.length = M ∧ s._abcds.length = M ∧ s._mesh.length = M

/-- Loop invariant of the outer loop of `solve` on entry to step `j`: the arrays
have length `M`, `_mesh` is the input mesh, `φ_0 … φ_j` obey the recurrence of
spec 4.3 and `A_k` holds the first `min (k+1) j` elementary factors at `z_k`. -/
def solve_invariant {K : Type} [Field K] (mesh mdata : List (complex_t K)) (M j : Nat)
    (s : solver K) : Prop :=
  s._phis.length = M ∧ s._abcds.length = M ∧ s._mesh = mesh
    ∧ s._phis[0]? = mdata[0]?
    ∧ (∀ i, i + 1 ≤ j → s._phis[i + 1]?
        = some (next_parameter (ordered_product s._phis mesh (mesh.getD (i + 1) 0) (i + 1))
            (mdata.getD (i + 1) 0)))
    ∧ (∀ k, k < M → s._abcds[k]?
        = some (ordered_product s._phis mesh (mesh.getD k 0) (min (k + 1) j)))


/-! ## Basic facts about the arithmetic layer -/

namespace complex_t
variable {K : Type}

theorem ext_iff2 {x y : complex_t K} : x = y ↔ x.re = y.re ∧ x.im = y.im := by
  cases x; cases y; simp

section simp_lemmas
variable [Field K]

@[simp] theorem zero_re : (0 : complex_t K).re = 0 := rfl
@[simp] theorem zero_im : (0 : complex_t K).im = 0 := rfl
@[simp] theorem one_re : (1 : complex_t K).re = 1 := rfl
@[simp] theorem one_im : (1 : complex_t K).im = 0 := rfl
@[simp] theorem One_eq : (One : complex_t K) = 1 := rfl
@[simp] theorem I_re : (I : complex_t K).re = 0 := rfl
@[simp] theorem I_im : (I : complex_t K).im = 1 := rfl
@[simp] theorem add_re (x y : complex_t K) : (x + y).re = x.re + y.re := rfl
@[simp] theorem add_im (x y : complex_t K) : (x + y).im = x.im + y.im := rfl
@[simp] theorem sub_re (x y : complex_t K) : (x - y).re = x.re - y.re := rfl
@[simp] theorem sub_im (x y : complex_t K) : (x - y).im = x.im - y.im := rfl
@[simp] theorem neg_re (x : complex_t K) : (-x).re = -x.re := rfl
@[simp] theorem neg_im (x : complex_t K) : (-x).im = -x.im := rfl
@[simp] theorem mul_re (x y : complex_t K) : (x * y).re = x.re * y.re - x.im * y.im := rfl
@[simp] theorem mul_im (x y : complex_t K) : (x * y).im = x.re * y.im + x.im * y.re := rfl
theorem div_re (x y : complex_t K) :
    (x / y).re = (x.re * y.re + x.im * y.im) / (y.re * y.re + y.im * y.im) := rfl
theorem div_im (x y : complex_t K) :
    (x / y).im = (x.im * y.re - x.re * y.im) / (y.re * y.re + y.im * y.im) := rfl
theorem inv_re (x : complex_t K) : (x⁻¹).re = x.re / (x.re * x.re + x.im * x.im) := by
  show (1 * x.re + 0 * x.im) / _ = _
  simp
theorem inv_im (x : complex_t K) : (x⁻¹).im = -x.im / (x.re * x.re + x.im * x.im) := by
  show (0 * x.re - 1 * x.im) / _ = _
  simp
@[simp] theorem conj_re (x : complex_t K) : (conj x).re = x.re := rfl
@[simp] theorem conj_im (x : complex_t K) : (conj x).im = -x.im := rfl
@[simp] theorem ofReal_re (r : K) : (ofReal r : complex_t K).re = r := rfl
@[simp] theorem ofReal_im (r : K) : (ofReal r : complex_t K).im = 0 := rfl
@[simp] theorem mk_re (a b : K) : (complex_t.mk a b).re = a := rfl
@[simp] theorem mk_im (a b : K) : (complex_t.mk a b).im = b := rfl

end simp_lemmas

theorem sq_sum_ne_zero [LinearOrderedField K] {x : complex_t K} (h : x ≠ 0) :
    x.re * x.re + x.im * x.im ≠ 0 := by
  intro h0
  apply h
  have ha : x.re = 0 := by nlinarith [mul_self_nonneg x.re, mul_self_nonneg x.im]
  have hb : x.im = 0 := by nlinarith [mul_self_nonneg x.re, mul_self_nonneg x.im]
  exact ext_iff2.2 ⟨ha, hb⟩

end complex_t

/-- Over an exact ordered field of reals `complex_add`, `complex_sub`,
`complex_multiply` and unary minus form a commutative ring. -/
instance complex_t.instCommRing {K : Type} [LinearOrderedField K] :
    CommRing (complex_t K) where
  add := (· + ·)
  zero := 0
  neg := Neg.neg
  sub := (· - ·)
  mul := (· * ·)
  one := 1
  add_assoc x y z := by
    apply complex_t.ext_iff2.2
    constructor <;> simp only [complex_t.add_re, complex_t.add_im] <;> ring
  zero_add x := by
    apply complex_t.ext_iff2.2
    constructor <;>
      simp only [complex_t.add_re, complex_t.add_im, complex_t.zero_re, complex_t.zero_im] <;>
      ring
  add_zero x := by
    apply complex_t.ext_iff2.2
    constructor <;>
      simp only [complex_t.add_re, complex_t.add_im, complex_t.zero_re, complex_t.zero_im] <;>
      ring
  add_comm x y := by
    apply complex_t.ext_iff2.2
    constructor <;> simp only [complex_t.add_re, complex_t.add_im] <;> ring
  neg_add_cancel x := by
    apply complex_t.ext_iff2.2
    constructor <;>
      simp only [complex_t.add_re, complex_t.add_im, complex_t.neg_re, complex_t.neg_im,
        complex_t.zero_re, complex_t.zero_im] <;> ring
  sub_eq_add_neg x y := by
    apply complex_t.ext_iff2.2
    constructor <;>
      simp only [complex_t.add_re, complex_t.add_im, complex_t.neg_re, complex_t.neg_im,
        complex_t.sub_re, complex_t.sub_im] <;> ring
  mul_assoc x y z := by
    apply complex_t.ext_iff2.2
    constructor <;> simp only [complex_t.mul_re, complex_t.mul_im] <;> ring
  mul_comm x y := by
    apply complex_t.ext_iff2.2
    constructor <;> simp only [complex_t.mul_re, complex_t.mul_im] <;> ring
  one_mul x := by
    apply complex_t.ext_iff2.2
    constructor <;>
      simp only [complex_t.mul_re, complex_t.mul_im, complex_t.one_re, complex_t.one_im] <;>
      ring
  mul_one x := by
    apply complex_t.ext_iff2.2
    constructor <;>
      simp only [complex_t.mul_re, complex_t.mul_im, complex_t.one_re, complex_t.one_im] <;>
      ring
  zero_mul x := by
    apply complex_t.ext_iff2.2
    constructor <;>
      simp only [complex_t.mul_re, complex_t.mul_im, complex_t.zero_re, complex_t.zero_im] <;>
      ring
  mul_zero x := by
    apply complex_t.ext_iff2.2
    constructor <;>
      simp only [complex_t.mul_re, complex_t.mul_im, complex_t.zero_re, complex_t.zero_im] <;>
      ring
  left_distrib x y z := by
    apply complex_t.ext_iff2.2
    constructor <;>
      simp only [complex_t.mul_re, complex_t.mul_im, complex_t.add_re, complex_t.add_im] <;>
      ring
  right_distrib x y z := by
    apply complex_t.ext_iff2.2
    constructor <;>
      simp only [complex_t.mul_re, complex_t.mul_im, complex_t.add_re, complex_t.add_im] <;>
      ring
  nsmul := nsmulRec
  zsmul := zsmulRec

/-- With `complex_divide` the arithmetic layer is a field (`x / 0 = 0`). -/
instance complex_t.instField {K : Type} [LinearOrderedField K] : Field (complex_t K) where
  inv := Inv.inv
  div := (· / ·)
  div_eq_mul_inv x y := by
    apply complex_t.ext_iff2.2
    constructor <;>
      simp only [complex_t.div_re, complex_t.div_im, complex_t.mul_re, complex_t.mul_im,
        complex_t.inv_re, complex_t.inv_im] <;> ring
  exists_pair_ne := ⟨0, 1, fun h => zero_ne_one (congrArg complex_t.re h : (0 : K) = 1)⟩
  mul_inv_cancel x h := by
    have hne := complex_t.sq_sum_ne_zero h
    apply complex_t.ext_iff2.2
    constructor <;>
      simp only [complex_t.mul_re, complex_t.mul_im, complex_t.inv_re, complex_t.inv_im,
        complex_t.one_re, complex_t.one_im] <;> field_simp
    ring
  inv_zero := by
    apply complex_t.ext_iff2.2
    constructor <;>
      simp only [complex_t.inv_re, complex_t.inv_im, complex_t.zero_re, complex_t.zero_im] <;>
      simp
  nnqsmul := _
  nnqsmul_def := fun _ _ => rfl
  qsmul := _
  qsmul_def := fun _ _ => rfl

/-! ## The Möbius transform and its inverse -/

section basic
variable {K : Type} [LinearOrderedField K]

namespace complex_t

theorem normSq_nonneg (x : complex_t K) : 0 ≤ normSq x := by
  unfold normSq
  nlinarith [mul_self_nonneg x.re, mul_self_nonneg x.im]

theorem normSq_div (x y : complex_t K) : normSq (x / y) = normSq x / normSq y := by
  unfold normSq
  rw [div_re, div_im]
  by_cases h : y.re * y.re + y.im * y.im = 0
  · simp [h]
  · field_simp
    ring

theorem natCast_re (n : ℕ) : ((n : ℕ) : complex_t K).re = n := by
  induction n with
  | zero => simp
  | succ n ih => rw [Nat.cast_succ, add_re, ih, one_re, Nat.cast_succ]

theorem natCast_im (n : ℕ) : ((n : ℕ) : complex_t K).im = 0 := by
  induction n with
  | zero => simp
  | succ n ih => rw [Nat.cast_succ, add_im, ih, one_im, add_zero]

instance instCharZero : CharZero (complex_t K) :=
  ⟨fun m n h => by
    have h1 := congrArg complex_t.re h
    rw [natCast_re, natCast_re] at h1
    exact Nat.cast_injective h1⟩

theorem ne_zero_of_im_ne {x : complex_t K} (h : x.im ≠ 0) : x ≠ 0 := by
  intro h0
  apply h
  rw [h0]
  rfl

end complex_t

theorem mobius_trasformation_eq (data : List (complex_t K)) :
    mobius_trasformation data = data.map mobius := rfl

theorem mobius_trasformation_length (data : List (complex_t K)) :
    (mobius_trasformation data).length = data.length := by
  simp [mobius_trasformation]

theorem inverse_mobius_mobius (d : complex_t K) (h : -d + complex_t.I ≠ 0) :
    inverse_mobius (mobius d) = -d := by
  have hI0 : (complex_t.I : complex_t K) ≠ 0 :=
    complex_t.ne_zero_of_im_ne (by simp)
  have h2 : (2 : complex_t K) ≠ 0 := two_ne_zero
  unfold inverse_mobius mobius
  have e1 : (1 : complex_t K) + (-d - complex_t.I) / (-d + complex_t.I)
      = (-2 * d) / (-d + complex_t.I) := by
    field_simp
    ring
  have e2 : (1 : complex_t K) - (-d - complex_t.I) / (-d + complex_t.I)
      = (2 * complex_t.I) / (-d + complex_t.I) := by
    field_simp
    ring
  rw [e1, e2]
  field_simp
  ring

theorem mobius_normSq_le_one (d : complex_t K) (h : d.im ≤ 0) :
    complex_t.normSq (mobius d) ≤ 1 := by
  unfold mobius
  rw [complex_t.normSq_div]
  have hpos : 0 < complex_t.normSq (-d + complex_t.I) := by
    simp only [complex_t.normSq, complex_t.add_re, complex_t.add_im, complex_t.neg_re,
      complex_t.neg_im, complex_t.I_re, complex_t.I_im]
    nlinarith [mul_self_nonneg d.re, mul_self_nonneg d.im]
  rw [div_le_one hpos]
  simp only [complex_t.normSq, complex_t.add_re, complex_t.add_im, complex_t.neg_re,
    complex_t.neg_im, complex_t.I_re, complex_t.I_im, complex_t.sub_re, complex_t.sub_im]
  nlinarith

end basic

/-! ## Containers and checked accesses -/

section containers
variable {α : Type}

theorem read_of_getElem? {v : List α} {i : Nat} {x : α} (h : v[i]? = some x) :
    read v i = .ok x := by
  simp [read, h]

theorem read_eq_ok {v : List α} {i : Nat} (h : i < v.length) : read v i = .ok v[i] :=
  read_of_getElem? (List.getElem?_eq_getElem h)

theorem write_eq_ok {v : List α} {i : Nat} (x : α) (h : i < v.length) :
    write v i x = .ok (v.set i x) := by
  simp [write, h]

theorem resize_length (v : List α) (n : Nat) (d : α) : (resize v n d).length = n := by
  simp only [resize, List.length_append, List.length_take, List.length_replicate]
  omega

theorem getD_eq_of_getElem? [Inhabited α] {v : List α} {i : Nat} {x d : α}
    (h : v[i]? = some x) : v.getD i d = x := by
  simp [List.getD, h]

end containers


/-! ## The Schur-parameter recursion `solve` -/

section solve_lemmas
variable {K : Type} [LinearOrderedField K]

theorem solve_prod_eq (zk zj phij : complex_t K) :
    (⟨(zk - zj) / (zk - complex_t.conj zj), phij,
      complex_t.conj phij * (zk - zj) / (zk - complex_t.conj zj), ⟨1, 0⟩⟩ : matrix_t K)
      = elementary_factor zk zj phij := by
  unfold elementary_factor
  rw [mul_div_assoc]
  rfl

theorem evaluate_prod_eq (z zj phij : complex_t K) :
    (⟨(z - zj) / (z - complex_t.conj zj), phij,
      complex_t.conj phij * ((z - zj) / (z - complex_t.conj zj)), ⟨1, 0⟩⟩ : matrix_t K)
      = elementary_factor z zj phij := rfl

theorem solve_inner_step (j n k : Nat) (s : solver K) {zk zj phij : complex_t K}
    {a : matrix_t K} (h1 : s._mesh[k]? = some zk) (h2 : s._mesh[j]? = some zj)
    (h3 : s._phis[j]? = some phij) (h4 : s._abcds[k]? = some a) :
    solve_inner j (n + 1) k s
      = solve_inner j n (k + 1)
          { s with _abcds := s._abcds.set k (a * elementary_factor zk zj phij) } := by
  have h5 : k < s._abcds.length := by
    by_contra hc
    rw [List.getElem?_eq_none (not_lt.mp hc)] at h4
    exact Option.noConfusion h4
  rw [solve_inner, read_of_getElem? h1, read_of_getElem? h2, read_of_getElem? h3,
    read_of_getElem? h4]
  simp only [bind, Except.bind]
  rw [write_eq_ok _ h5, solve_prod_eq]

theorem solve_inner_spec (j : Nat) (zj phij : complex_t K) :
    ∀ (n k : Nat) (s : solver K), s._mesh[j]? = some zj → s._phis[j]? = some phij →
      k + n ≤ s._abcds.length → k + n ≤ s._mesh.length →
      ∃ s', solve_inner j n k s = .ok s' ∧ s'._phis = s._phis ∧ s'._mesh = s._mesh
        ∧ s'._abcds.length = s._abcds.length
        ∧ ∀ i, s'._abcds[i]?
            = if k ≤ i ∧ i < k + n then
                (s._abcds[i]?).map (fun a => a * elementary_factor (s._mesh.getD i 0) zj phij)
              else s._abcds[i]? := by
  intro n
  induction n with
  | zero =>
    intro k s _ _ _ _
    refine ⟨s, rfl, rfl, rfl, rfl, fun i => ?_⟩
    rw [if_neg]
    omega
  | succ n ih =>
    intro k s hz hp ha hm
    have hk1 : k < s._mesh.length := by omega
    have hk2 : k < s._abcds.length := by omega
    rw [solve_inner_step j n k s (List.getElem?_eq_getElem hk1) hz hp
      (List.getElem?_eq_getElem hk2)]
    obtain ⟨s', h1, h2, h3, h4, h5⟩ := ih (k + 1)
      ⟨s._phis, s._abcds.set k (s._abcds[k] * elementary_factor s._mesh[k] zj phij), s._mesh⟩
      hz hp (by simp only [List.length_set]; omega) (by simp only []; omega)
    refine ⟨s', h1, h2, h3, by rw [h4]; simp, fun i => ?_⟩
    rw [h5 i]
    simp only [List.getElem?_set]
    by_cases hik : k = i
    · subst hik
      have e : s._mesh.getD k 0 = s._mesh[k] :=
        getD_eq_of_getElem? (List.getElem?_eq_getElem hk1)
      rw [e]
      simp [hk2]
    · by_cases hlt : k + 1 ≤ i ∧ i < k + 1 + n
      · have : k ≤ i ∧ i < k + (n + 1) := by omega
        simp [hlt, this, hik]
      · have : ¬ (k ≤ i ∧ i < k + (n + 1)) := by omega
        simp [hlt, this, hik]

theorem solve_init_spec (mesh : List (complex_t K)) :
    ∀ (n k : Nat) (s : solver K), k + n ≤ s._abcds.length → k + n ≤ s._mesh.length →
      k + n ≤ mesh.length →
      ∃ s', solve_init mesh n k s = .ok s' ∧ s'._phis = s._phis
        ∧ s'._abcds.length = s._abcds.length ∧ s'._mesh.length = s._mesh.length
        ∧ (∀ i, s'._abcds[i]?
            = if k ≤ i ∧ i < k + n then some matrix_t.Identity else s._abcds[i]?)
        ∧ (∀ i, s'._mesh[i]? = if k ≤ i ∧ i < k + n then mesh[i]? else s._mesh[i]?) := by
  intro n
  induction n with
  | zero =>
    intro k s _ _ _
    refine ⟨s, rfl, rfl, rfl, rfl, fun i => ?_, fun i => ?_⟩ <;>
    · rw [if_neg]
      omega
  | succ n ih =>
    intro k s ha hm hl
    have hk1 : k < s._mesh.length := by omega
    have hk2 : k < s._abcds.length := by omega
    have hk3 : k < mesh.length := by omega
    obtain ⟨s', h1, h2, h3, h4, h5, h6⟩ := ih (k + 1)
      ⟨s._phis, s._abcds.set k matrix_t.Identity, s._mesh.set k mesh[k]⟩
      (by simp only [List.length_set]; omega) (by simp only [List.length_set]; omega)
      (by omega)
    refine ⟨s', ?_, h2, by rw [h3]; simp, by rw [h4]; simp, fun i => ?_, fun i => ?_⟩
    · rw [solve_init, write_eq_ok _ hk2, read_eq_ok hk3]
      simp only [bind, Except.bind]
      rw [write_eq_ok _ hk1]
      exact h1
    · rw [h5 i]
      simp only [List.getElem?_set]
      by_cases hik : k = i
      · subst hik
        have : k ≤ k ∧ k < k + (n + 1) := by omega
        simp [hk2, this]
      · by_cases hlt : k + 1 ≤ i ∧ i < k + 1 + n
        · have : k ≤ i ∧ i < k + (n + 1) := by omega
          simp [hlt, this]
        · have : ¬ (k ≤ i ∧ i < k + (n + 1)) := by omega
          simp [hlt, this, hik]
    · rw [h6 i]
      simp only [List.getElem?_set]
      by_cases hik : k = i
      · subst hik
        have : k ≤ k ∧ k < k + (n + 1) := by omega
        simp [hk1, hk3, this]
      · by_cases hlt : k + 1 ≤ i ∧ i < k + 1 + n
        · have : k ≤ i ∧ i < k + (n + 1) := by omega
          simp [hlt, this]
        · have : ¬ (k ≤ i ∧ i < k + (n + 1)) := by omega
          simp [hlt, this, hik]

theorem ordered_product_congr (phis phis' zs : List (complex_t K)) (z : complex_t K) :
    ∀ n, (∀ i, i < n → phis.getD i 0 = phis'.getD i 0) →
      ordered_product phis zs z n = ordered_product phis' zs z n := by
  intro n
  induction n with
  | zero => intro _; rfl
  | succ n ih =>
    intro h
    rw [ordered_product, ordered_product, ih (fun i hi => h i (by omega)), h n (by omega)]

theorem getD_set_ne (l : List (complex_t K)) {a i : Nat} (v : complex_t K) (h : a ≠ i) :
    (l.set a v).getD i 0 = l.getD i 0 := by
  rw [List.getD_eq_getElem?_getD, List.getD_eq_getElem?_getD, List.getElem?_set_ne h]

theorem solve_outer_step (mesh mdata : List (complex_t K)) (M : Nat)
    (hmesh : mesh.length = M) (hmd : mdata.length = M) (j : Nat) (hj : j + 1 < M)
    (s : solver K) (hinv : solve_invariant mesh mdata M j s) :
    ∃ s1 phis, solve_inner j (M - j) j s = .ok s1 ∧ read s1._abcds (j + 1)
          = .ok (ordered_product s._phis mesh (mesh.getD (j + 1) 0) (j + 1))
      ∧ write s1._phis (j + 1)
          (next_parameter (ordered_product s._phis mesh (mesh.getD (j + 1) 0) (j + 1))
            (mdata.getD (j + 1) 0)) = .ok phis
      ∧ solve_invariant mesh mdata M (j + 1) { s1 with _phis := phis } := by
  obtain ⟨hlp, hla, hm, hp0, hrec, habcd⟩ := hinv
  have hjm : j < s._mesh.length := by rw [hm]; omega
  have hjp : j < s._phis.length := by omega
  obtain ⟨s1, h1, h2, h3, h4, h5⟩ := solve_inner_spec j s._mesh[j] s._phis[j] (M - j) j s
    (List.getElem?_eq_getElem hjm) (List.getElem?_eq_getElem hjp) (by omega)
    (by rw [hm]; omega)
  have hzj : mesh.getD j 0 = s._mesh[j] := by
    rw [← hm]
    exact getD_eq_of_getElem? (List.getElem?_eq_getElem hjm)
  have hpj : s._phis.getD j 0 = s._phis[j] :=
    getD_eq_of_getElem? (List.getElem?_eq_getElem hjp)
  have hA : ∀ k, k < M → s1._abcds[k]?
      = some (ordered_product s._phis mesh (mesh.getD k 0) (min (k + 1) (j + 1))) := by
    intro k hk
    have hmk : s._mesh.getD k 0 = mesh.getD k 0 := by rw [hm]
    rw [h5 k, habcd k hk, hmk]
    by_cases hjk : j ≤ k
    · have e1 : min (k + 1) j = j := by omega
      have e2 : min (k + 1) (j + 1) = j + 1 := by omega
      have e3 : j ≤ k ∧ k < j + (M - j) := by omega
      rw [if_pos e3, e1, e2, Option.map_some', ordered_product, hzj, hpj]
    · have e1 : min (k + 1) j = k + 1 := by omega
      have e2 : min (k + 1) (j + 1) = k + 1 := by omega
      have e3 : ¬ (j ≤ k ∧ k < j + (M - j)) := by omega
      rw [if_neg e3, e1, e2]
  have hset : ∀ v : complex_t K, ∀ i, i < j + 1 →
      (s._phis.set (j + 1) v).getD i 0 = s._phis.getD i 0 :=
    fun v i hi => getD_set_ne _ v (by omega)
  refine ⟨s1, s._phis.set (j + 1)
    (next_parameter (ordered_product s._phis mesh (mesh.getD (j + 1) 0) (j + 1))
      (mdata.getD (j + 1) 0)), h1, ?_, ?_, ?_⟩
  · have := hA (j + 1) hj
    rw [Nat.min_eq_right (by omega)] at this
    exact read_of_getElem? this
  · rw [h2]
    exact write_eq_ok _ (by omega)
  · refine ⟨by simp [hlp], by simp only []; omega, by simp only []; rw [h3, hm], ?_, ?_, ?_⟩
    · simp only []
      rw [List.getElem?_set_ne (by omega), hp0]
    · intro i hi
      simp only []
      rw [ordered_product_congr _ s._phis mesh _ (i + 1) (fun t ht => hset _ t (by omega))]
      by_cases hij : i = j
      · subst hij
        rw [List.getElem?_set_self (by omega)]
      · rw [List.getElem?_set_ne (by omega)]
        exact hrec i (by omega)
    · intro k hk
      simp only []
      rw [ordered_product_congr _ s._phis mesh _ _ (fun t ht => hset _ t (by omega))]
      exact hA k hk

theorem solve_outer_spec (mesh mdata : List (complex_t K)) (M : Nat)
    (hmesh : mesh.length = M) (hmd : mdata.length = M) :
    ∀ (n j : Nat) (s : solver K), j + n + 1 = M → solve_invariant mesh mdata M j s →
      ∃ s', solve_outer M mdata n j s = .ok s' ∧ solve_invariant mesh mdata M (M - 1) s' := by
  intro n
  induction n with
  | zero =>
    intro j s hj hinv
    have : M - 1 = j := by omega
    rw [this]
    exact ⟨s, rfl, hinv⟩
  | succ n ih =>
    intro j s hj hinv
    obtain ⟨s1, phis, h1, h2, h3, h4⟩ :=
      solve_outer_step mesh mdata M hmesh hmd j (by omega) s hinv
    obtain ⟨s', h5, h6⟩ := ih (j + 1) { s1 with _phis := phis } (by omega) h4
    refine ⟨s', ?_, h6⟩
    have hm : read mdata (j + 1) = .ok (mdata.getD (j + 1) 0) := by
      have hlt : j + 1 < mdata.length := by omega
      rw [read_eq_ok hlt]
      congr 1
      exact (getD_eq_of_getElem? (List.getElem?_eq_getElem hlt)).symm
    rw [solve_outer, h1]
    simp only [bind, Except.bind]
    rw [h2, hm]
    simp only []
    rw [show ∀ (a : matrix_t K) (m : complex_t K),
      (-a.a11 * m + a.a01) / (a.a10 * m - a.a00) = next_parameter a m from fun _ _ => rfl, h3]
    exact h5

theorem solve_spec (s : solver K) (mesh data : List (complex_t K))
    (hlen : mesh.length = data.length) (hM : 1 ≤ mesh.length) :
    ∃ s', solve s mesh data = (.ok (), s')
      ∧ solve_invariant mesh (mobius_trasformation data) mesh.length (mesh.length - 1) s' := by
  have hmd : (mobius_trasformation data).length = mesh.length := by
    rw [mobius_trasformation_length, hlen]
  have h0 : 0 < (mobius_trasformation data).length := by omega
  obtain ⟨s2, h1, h2, h3, h4, h5, h6⟩ := solve_init_spec mesh mesh.length 0
    ⟨(resize s._phis mesh.length 0).set 0 (mobius_trasformation data)[0],
      resize s._abcds mesh.length matrix_t.unsized, resize s._mesh mesh.length 0⟩
    (by simp [resize_length]) (by simp [resize_length]) (by simp)
  replace h3 : s2._abcds.length = mesh.length := by rw [h3]; exact resize_length _ _ _
  replace h4 : s2._mesh.length = mesh.length := by rw [h4]; exact resize_length _ _ _
  have hinv : solve_invariant mesh (mobius_trasformation data) mesh.length 0 s2 := by
    refine ⟨by rw [h2]; simp [resize_length], h3, ?_, ?_, fun i hi => by omega, fun k hk => ?_⟩
    · apply List.ext_getElem?
      intro i
      rw [h6 i]
      by_cases hi : i < mesh.length
      · simp [hi]
      · rw [if_neg (by omega)]
        simp only []
        rw [List.getElem?_eq_none (by rw [resize_length]; omega),
          List.getElem?_eq_none (by omega)]
    · rw [h2]
      simp only []
      rw [List.getElem?_set_self (by simp only [resize_length]; omega),
        List.getElem?_eq_getElem h0]
    · rw [h5 k, if_pos (by omega), Nat.min_eq_right (by omega)]
      rfl
  obtain ⟨s3, h7, h8⟩ := solve_outer_spec mesh (mobius_trasformation data) mesh.length rfl hmd
    (mesh.length - 1) 0 s2 (by omega) hinv
  refine ⟨s3, ?_, h8⟩
  unfold solve
  rw [if_neg (by simpa using hlen)]
  unfold solve_ndebug
  simp only []
  rw [read_eq_ok h0]
  simp only [bind, Except.bind]
  rw [write_eq_ok _ (by simp only [resize_length]; omega)]
  simp only []
  rw [h1]
  simp only []
  rw [h7]

theorem solve_invariant_unique (mesh mdata : List (complex_t K)) (M j : Nat)
    (s t : solver K) (hs : solve_invariant mesh mdata M j s)
    (ht : solve_invariant mesh mdata M j t) (hfull : j + 1 = M) : s = t := by
  obtain ⟨hs1, hs2, hs3, hs4, hs5, hs6⟩ := hs
  obtain ⟨ht1, ht2, ht3, ht4, ht5, ht6⟩ := ht
  have hphis : ∀ i : Nat, s._phis[i]? = t._phis[i]? := by
    intro i
    induction i using Nat.strong_induction_on with
    | _ i ih =>
      cases i with
      | zero => rw [hs4, ht4]
      | succ i =>
        by_cases hi : i + 1 ≤ j
        · rw [hs5 i hi, ht5 i hi]
          rw [ordered_product_congr s._phis t._phis mesh _ (i + 1)
            (fun a ha => by
              rw [List.getD_eq_getElem?_getD, List.getD_eq_getElem?_getD, ih a ha])]
        · have e1 : s._phis[i + 1]? = none := List.getElem?_eq_none (by omega)
          have e2 : t._phis[i + 1]? = none := List.getElem?_eq_none (by omega)
          rw [e1, e2]
  have hp : s._phis = t._phis := List.ext_getElem? hphis
  have ha : s._abcds = t._abcds := by
    apply List.ext_getElem?
    intro k
    by_cases hk : k < M
    · rw [hs6 k hk, ht6 k hk, hp]
    · have e1 : s._abcds[k]? = none := List.getElem?_eq_none (by omega)
      have e2 : t._abcds[k]? = none := List.getElem?_eq_none (by omega)
      rw [e1, e2]
  cases s
  cases t
  simp only [] at hp ha hs3 ht3
  rw [hp, ha, hs3, ht3]

theorem solve_independent_of_state (s t : solver K) (mesh data : List (complex_t K))
    (hlen : mesh.length = data.length) (hM : 1 ≤ mesh.length) :
    solve s mesh data = solve t mesh data := by
  obtain ⟨s', hs, hs'⟩ := solve_spec s mesh data hlen hM
  obtain ⟨t', ht, ht'⟩ := solve_spec t mesh data hlen hM
  rw [hs, ht, solve_invariant_unique mesh _ _ _ s' t' hs' ht' (by omega)]

theorem solve_ndebug_eq_solve (s : solver K) (mesh data : List (complex_t K))
    (hlen : mesh.length = data.length) : solve_ndebug s mesh data = solve s mesh data := by
  unfold solve
  rw [if_neg (by simpa using hlen)]

end solve_lemmas


/-! ## The continued-fraction evaluator `evaluate` -/

section evaluate_lemmas
variable {K : Type} [LinearOrderedField K]

theorem evaluate_inner_spec (s : solver K) (z : complex_t K) :
    ∀ (n j : Nat) (prod result : matrix_t K), j + n ≤ s._phis.length →
      j + n ≤ s._mesh.length → result = ordered_product s._phis s._mesh z j →
      ∃ prod', evaluate_inner s z n j prod result
        = .ok (prod', ordered_product s._phis s._mesh z (j + n)) := by
  intro n
  induction n with
  | zero =>
    intro j prod result _ _ hr
    exact ⟨prod, by rw [hr]; rfl⟩
  | succ n ih =>
    intro j prod result hp hm hr
    have hj1 : j < s._mesh.length := by omega
    have hj2 : j < s._phis.length := by omega
    obtain ⟨prod', h⟩ := ih (j + 1) (elementary_factor z s._mesh[j] s._phis[j])
      (result * elementary_factor z s._mesh[j] s._phis[j]) (by omega) (by omega)
      (by
        rw [hr, ordered_product, getD_eq_of_getElem? (List.getElem?_eq_getElem hj1),
          getD_eq_of_getElem? (List.getElem?_eq_getElem hj2)])
    refine ⟨prod', ?_⟩
    rw [evaluate_inner, read_eq_ok hj1, read_eq_ok hj2]
    simp only [bind, Except.bind]
    have e : j + 1 + n = j + (n + 1) := by omega
    rw [evaluate_prod_eq, h, e]

theorem evaluate_theta_eq (R : matrix_t K) :
    (R.a00 * (⟨0, 0⟩ : complex_t K) + R.a01) / (R.a10 * (⟨0, 0⟩ : complex_t K) + R.a11)
      = R.a01 / R.a11 := by
  have h0 : (⟨0, 0⟩ : complex_t K) = 0 := rfl
  rw [h0, mul_zero, mul_zero, zero_add, zero_add]

theorem evaluate_outer_spec (M_PI : K) (s : solver K) (grid : List (complex_t K))
    (hm : s._phis.length ≤ s._mesh.length) :
    ∀ (n i : Nat) (prod : matrix_t K) (results : List K), i + n ≤ grid.length →
      i + n ≤ results.length →
      ∃ results', evaluate_outer M_PI s grid s._phis.length n i prod results = .ok results'
        ∧ results'.length = results.length
        ∧ ∀ t, results'[t]?
            = if i ≤ t ∧ t < i + n then
                (grid[t]?).map (spectral_value M_PI s._phis s._mesh)
              else results[t]? := by
  intro n
  induction n with
  | zero =>
    intro i prod results _ _
    refine ⟨results, rfl, rfl, fun t => ?_⟩
    rw [if_neg]
    omega
  | succ n ih =>
    intro i prod results hg hr
    have hi1 : i < grid.length := by omega
    have hi2 : i < results.length := by omega
    obtain ⟨prod', hin⟩ := evaluate_inner_spec s grid[i] s._phis.length 0 prod
      matrix_t.Identity (by omega) (by omega) rfl
    rw [Nat.zero_add] at hin
    obtain ⟨results', h1, h2, h3⟩ := ih (i + 1) prod'
      (results.set i (spectral_value M_PI s._phis s._mesh grid[i]))
      (by omega) (by simp only [List.length_set]; omega)
    refine ⟨results', ?_, by rw [h2]; simp, fun t => ?_⟩
    · rw [evaluate_outer, read_eq_ok hi1]
      simp only [bind, Except.bind]
      rw [hin]
      simp only []
      rw [evaluate_theta_eq, write_eq_ok _ hi2]
      exact h1
    · rw [h3 t]
      simp only [List.getElem?_set]
      by_cases hit : i = t
      · subst hit
        have : i ≤ i ∧ i < i + (n + 1) := by omega
        simp [hi1, hi2, this]
      · by_cases hlt : i + 1 ≤ t ∧ t < i + 1 + n
        · have : i ≤ t ∧ t < i + (n + 1) := by omega
          simp [hlt, this]
        · have : ¬ (i ≤ t ∧ t < i + (n + 1)) := by omega
          simp [hlt, this, hit]

theorem evaluate_spec (M_PI : K) (s : solver K) (grid : List (complex_t K))
    (hM : 1 ≤ s._phis.length) (hm : s._phis.length ≤ s._mesh.length) :
    evaluate M_PI s grid = .ok (grid.map (spectral_value M_PI s._phis s._mesh)) := by
  obtain ⟨results', h1, h2, h3⟩ := evaluate_outer_spec M_PI s grid hm grid.length 0
    matrix_t.unsized (List.replicate grid.length 0) (by omega) (by simp)
  unfold evaluate
  rw [if_neg (by omega), h1]
  congr 1
  apply List.ext_getElem?
  intro t
  rw [h3 t]
  by_cases ht : t < grid.length
  · rw [if_pos (by omega), List.getElem?_map]
  · have e1 : (List.map (spectral_value M_PI s._phis s._mesh) grid)[t]? = none :=
      List.getElem?_eq_none (by simp only [List.length_map]; omega)
    have e2 : (List.replicate grid.length (0 : K))[t]? = none :=
      List.getElem?_eq_none (by simp only [List.length_replicate]; omega)
    rw [if_neg (by omega), e1, e2]

end evaluate_lemmas


/-! ## Conjugation, modulus and real scalars -/

section conj_lemmas
variable {K : Type} [LinearOrderedField K]

namespace complex_t

@[simp] theorem conj_zero : conj (0 : complex_t K) = 0 := by
  apply ext_iff2.2
  constructor <;> simp

@[simp] theorem conj_one : conj (1 : complex_t K) = 1 := by
  apply ext_iff2.2
  constructor <;> simp

@[simp] theorem conj_conj (x : complex_t K) : conj (conj x) = x := by
  apply ext_iff2.2
  constructor <;> simp

@[simp] theorem conj_add (x y : complex_t K) : conj (x + y) = conj x + conj y := by
  apply ext_iff2.2
  constructor <;> simp
  ring

@[simp] theorem conj_sub (x y : complex_t K) : conj (x - y) = conj x - conj y := by
  apply ext_iff2.2
  constructor <;> simp
  ring

@[simp] theorem conj_neg (x : complex_t K) : conj (-x) = -conj x := by
  apply ext_iff2.2
  constructor <;> simp

@[simp] theorem conj_mul (x y : complex_t K) : conj (x * y) = conj x * conj y := by
  apply ext_iff2.2
  constructor <;> simp
  ring

@[simp] theorem conj_div (x y : complex_t K) : conj (x / y) = conj x / conj y := by
  apply ext_iff2.2
  constructor <;> simp [div_re, div_im]
  ring

@[simp] theorem conj_I : conj (I : complex_t K) = -I := by
  apply ext_iff2.2
  constructor <;> simp

@[simp] theorem conj_ofReal (r : K) : conj (ofReal r : complex_t K) = ofReal r := by
  apply ext_iff2.2
  constructor <;> simp

theorem mul_conj (x : complex_t K) : x * conj x = ofReal (normSq x) := by
  apply ext_iff2.2
  constructor <;> simp [normSq]
  ring

theorem ofReal_mul_re (r : K) (x : complex_t K) : (ofReal r * x).re = r * x.re := by
  simp

theorem ofReal_eq_of_im_eq_zero {x : complex_t K} (h : x.im = 0) : x = ofReal x.re := by
  apply ext_iff2.2
  constructor <;> simp [h]

theorem I_ne_zero : (I : complex_t K) ≠ 0 := ne_zero_of_im_ne (by simp)

theorem sub_conj_ne_zero {x y : complex_t K} (hx : 0 < x.im) (hy : 0 < y.im) :
    x - conj y ≠ 0 := by
  apply ne_zero_of_im_ne
  simp only [sub_im, conj_im]
  linarith

theorem sub_conj_self (x : complex_t K) : x - conj x = ofReal (2 * x.im) * I := by
  apply ext_iff2.2
  constructor <;> simp
  ring

theorem normSq_eq_zero {x : complex_t K} (h : normSq x = 0) : x = 0 := by
  by_contra hne
  exact sq_sum_ne_zero hne h

theorem normSq_mul (x y : complex_t K) : normSq (x * y) = normSq x * normSq y := by
  simp only [normSq, mul_re, mul_im]
  ring

theorem conj_sum (S : Finset ℕ) (f : ℕ → complex_t K) :
    conj (∑ i in S, f i) = ∑ i in S, conj (f i) := by
  classical
  induction S using Finset.induction_on with
  | empty => simp
  | insert hnot ih => rw [Finset.sum_insert hnot, Finset.sum_insert hnot, conj_add, ih]

end complex_t

end conj_lemmas


/-! ## Positive semi-definite kernels on a finite index set -/

section psd
variable {K : Type} [LinearOrderedField K]

open complex_t (conj ofReal normSq)

/-- The kernel `Q` is positive semi-definite on the index set `S`. -/
def psd_on (S : Finset ℕ) (Q : ℕ → ℕ → complex_t K) : Prop :=
  ∀ c : ℕ → complex_t K, 0 ≤ (∑ i in S, ∑ j in S, conj (c i) * Q i j * c j).re

theorem sum_upto_eq_sum (f : ℕ → complex_t K) (n : ℕ) :
    sum_upto f n = ∑ i in Finset.range n, f i := by
  induction n with
  | zero => rfl
  | succ n ih => rw [sum_upto, ih, Finset.sum_range_succ]

theorem psd_on_range_of_positive_semidefinite {n : ℕ} {P : ℕ → ℕ → complex_t K}
    (h : positive_semidefinite n P) : psd_on (Finset.range n) P := by
  intro c
  have := h c
  unfold hermitian_form at this
  rw [sum_upto_eq_sum] at this
  simp only [sum_upto_eq_sum] at this
  exact this

theorem psd_on_congr {S : Finset ℕ} {Q Q' : ℕ → ℕ → complex_t K}
    (heq : ∀ i ∈ S, ∀ j ∈ S, Q' i j = Q i j) (h : psd_on S Q) : psd_on S Q' := by
  intro c
  have e : ∑ i in S, ∑ j in S, conj (c i) * Q' i j * c j
      = ∑ i in S, ∑ j in S, conj (c i) * Q i j * c j :=
    Finset.sum_congr rfl fun i hi => Finset.sum_congr rfl fun j hj => by rw [heq i hi j hj]
  rw [e]
  exact h c

theorem psd_on_subset {S S' : Finset ℕ} {Q : ℕ → ℕ → complex_t K} (hsub : S' ⊆ S)
    (h : psd_on S Q) : psd_on S' Q := by
  classical
  intro c
  have key := h (fun i => if i ∈ S' then c i else 0)
  have e : ∑ i in S, ∑ j in S, conj (if i ∈ S' then c i else 0) * Q i j
        * (if j ∈ S' then c j else 0)
      = ∑ i in S', ∑ j in S', conj (c i) * Q i j * c j := by
    rw [← Finset.sum_subset hsub (fun i _ hi => by simp [hi])]
    refine Finset.sum_congr rfl fun i hi => ?_
    rw [← Finset.sum_subset hsub (fun j _ hj => by simp [hj])]
    refine Finset.sum_congr rfl fun j hj => ?_
    simp [hi, hj]
  rw [e] at key
  exact key

theorem psd_on_diag {S : Finset ℕ} {Q : ℕ → ℕ → complex_t K} (h : psd_on S Q) {k : ℕ}
    (hk : k ∈ S) : 0 ≤ (Q k k).re := by
  have h1 := psd_on_subset (Finset.singleton_subset_iff.mpr hk) h (fun _ => 1)
  simpa using h1

theorem psd_on_scale {S : Finset ℕ} {Q : ℕ → ℕ → complex_t K} (h : psd_on S Q) {r : K}
    (hr : 0 ≤ r) : psd_on S (fun i j => ofReal r * Q i j) := by
  intro c
  have e : ∑ i in S, ∑ j in S, conj (c i) * (ofReal r * Q i j) * c j
      = ofReal r * ∑ i in S, ∑ j in S, conj (c i) * Q i j * c j := by
    rw [Finset.mul_sum]
    refine Finset.sum_congr rfl fun i _ => ?_
    rw [Finset.mul_sum]
    refine Finset.sum_congr rfl fun j _ => ?_
    ring
  rw [e, complex_t.ofReal_mul_re]
  exact mul_nonneg hr (h c)

theorem psd_on_conjugate {S : Finset ℕ} {Q : ℕ → ℕ → complex_t K} (h : psd_on S Q)
    (d : ℕ → complex_t K) : psd_on S (fun i j => d i * Q i j * conj (d j)) := by
  intro c
  have e : ∑ i in S, ∑ j in S, conj (c i) * (d i * Q i j * conj (d j)) * c j
      = ∑ i in S, ∑ j in S, conj (conj (d i) * c i) * Q i j * (conj (d j) * c j) := by
    refine Finset.sum_congr rfl fun i _ => Finset.sum_congr rfl fun j _ => ?_
    rw [complex_t.conj_mul, complex_t.conj_conj]
    ring
  rw [e]
  exact h _

theorem psd_on_schur_complement {S : Finset ℕ} {Q : ℕ → ℕ → complex_t K} {t : ℕ}
    (ht : t ∉ S) (hherm : ∀ i j, Q j i = conj (Q i j)) (h : psd_on (insert t S) Q)
    (hpos : 0 < (Q t t).re) :
    psd_on S (fun i j => Q t t * Q i j - Q i t * Q t j) := by
  classical
  intro c
  have him : (Q t t).im = 0 := by
    have := congrArg complex_t.im (hherm t t)
    simp only [complex_t.conj_im] at this
    linarith
  have hq : Q t t = ofReal (Q t t).re := complex_t.ofReal_eq_of_im_eq_zero him
  have hqc : conj (Q t t) = Q t t := (hherm t t).symm
  set q := Q t t with hqdef
  set s := ∑ j in S, Q t j * c j with hs
  set A := ∑ i in S, ∑ j in S, conj (c i) * Q i j * c j with hA
  have hsbar : conj s = ∑ i in S, conj (c i) * Q i t := by
    rw [hs, complex_t.conj_sum]
    refine Finset.sum_congr rfl fun i _ => ?_
    rw [complex_t.conj_mul, ← hherm t i]
    ring
  have hG : ∑ i in S, ∑ j in S, conj (c i) * (q * Q i j - Q i t * Q t j) * c j
      = q * A - conj s * s := by
    rw [hsbar, hA, hs, Finset.mul_sum, Finset.sum_mul_sum, ← Finset.sum_sub_distrib]
    refine Finset.sum_congr rfl fun i _ => ?_
    rw [Finset.mul_sum, ← Finset.sum_sub_distrib]
    refine Finset.sum_congr rfl fun j _ => ?_
    ring
  have key := h (fun i => if i = t then -s else q * c i)
  have hF : ∑ i in insert t S, ∑ j in insert t S,
        conj (if i = t then -s else q * c i) * Q i j * (if j = t then -s else q * c j)
      = q * (q * A - conj s * s) := by
    have inner : ∀ i, ∑ j in insert t S,
          conj (if i = t then -s else q * c i) * Q i j * (if j = t then -s else q * c j)
        = conj (if i = t then -s else q * c i) * (Q i t * (-s))
          + conj (if i = t then -s else q * c i) * q * ∑ j in S, Q i j * c j := by
      intro i
      rw [Finset.sum_insert ht, if_pos rfl, Finset.mul_sum]
      congr 1
      · ring
      · refine Finset.sum_congr rfl fun j hj => ?_
        have hjt : j ≠ t := fun e => ht (e ▸ hj)
        rw [if_neg hjt]
        ring
    simp only [inner]
    rw [Finset.sum_insert ht, if_pos rfl]
    have rest : ∑ i in S, (conj (if i = t then -s else q * c i) * (Q i t * (-s))
          + conj (if i = t then -s else q * c i) * q * ∑ j in S, Q i j * c j)
        = -(q * (conj s * s)) + q * q * A := by
      have : ∀ i ∈ S, (conj (if i = t then -s else q * c i) * (Q i t * (-s))
          + conj (if i = t then -s else q * c i) * q * ∑ j in S, Q i j * c j)
          = -(q * s) * (conj (c i) * Q i t) + q * q * ∑ j in S, conj (c i) * Q i j * c j := by
        intro i hi
        have hit : i ≠ t := fun e => ht (e ▸ hi)
        have hrow : ∑ j in S, conj (c i) * Q i j * c j
            = conj (c i) * ∑ j in S, Q i j * c j := by
          rw [Finset.mul_sum]
          exact Finset.sum_congr rfl fun j _ => by ring
        rw [if_neg hit, complex_t.conj_mul, hqc, hrow]
        ring
      rw [Finset.sum_congr rfl this, Finset.sum_add_distrib, ← Finset.mul_sum,
        ← Finset.mul_sum, ← hsbar]
      ring
    rw [rest, complex_t.conj_neg, ← hs]
    ring
  rw [hF, ← hG, hq, complex_t.ofReal_mul_re] at key
  rw [← hq] at key
  exact nonneg_of_mul_nonneg_right key hpos

theorem psd_on_zero_row {S : Finset ℕ} {Q : ℕ → ℕ → complex_t K} {t k : ℕ}
    (hherm : ∀ i j, Q j i = conj (Q i j)) (h : psd_on S Q) (ht : t ∈ S) (hk : k ∈ S)
    (htk : t ≠ k) (hzero : Q t t = 0) : Q t k = 0 := by
  classical
  have hsub : ({t, k} : Finset ℕ) ⊆ S := by
    intro x hx
    rcases Finset.mem_insert.mp hx with rfl | hx
    · exact ht
    · rw [Finset.mem_singleton.mp hx]
      exact hk
  have h2 := psd_on_subset hsub h
  apply complex_t.normSq_eq_zero
  by_contra hne
  have hpos : 0 < normSq (Q t k) :=
    lt_of_le_of_ne (complex_t.normSq_nonneg _) (Ne.symm hne)
  have key := h2 (fun i => if i = t then
    ofReal (-((Q k k).re + 1) / (2 * normSq (Q t k))) * Q t k else 1)
  simp only [Finset.sum_pair htk, if_pos rfl, if_neg htk.symm, hzero, hherm t k, if_true] at key
  have e : ∀ r : K, (conj (ofReal r * Q t k) * 0 * (ofReal r * Q t k)
      + conj (ofReal r * Q t k) * Q t k * 1
      + (conj (1 : complex_t K) * conj (Q t k) * (ofReal r * Q t k)
        + conj (1 : complex_t K) * Q k k * 1)).re
      = 2 * r * normSq (Q t k) + (Q k k).re := by
    intro r
    have h1 : conj (ofReal r * Q t k) * Q t k = ofReal r * ofReal (normSq (Q t k)) := by
      rw [complex_t.conj_mul, complex_t.conj_ofReal, ← complex_t.mul_conj]
      ring
    have h3 : conj (Q t k) * (ofReal r * Q t k) = ofReal r * ofReal (normSq (Q t k)) := by
      rw [← complex_t.mul_conj]
      ring
    rw [mul_zero, zero_mul, zero_add, mul_one, mul_one, complex_t.conj_one, one_mul, one_mul,
      h1, h3]
    simp
    ring
  rw [e] at key
  have hcalc : 2 * (-((Q k k).re + 1) / (2 * normSq (Q t k))) * normSq (Q t k) + (Q k k).re
      = -1 := by
    field_simp
    ring
  rw [hcalc] at key
  linarith

end psd


/-! ## The Schur algorithm on the upper half-plane -/

section schur
variable {K : Type} [LinearOrderedField K]

open complex_t (conj ofReal normSq I)

theorem I_mul_I : (I : complex_t K) * I = -1 := by
  apply complex_t.ext_iff2.2
  constructor <;> simp

theorem schur_kernel_herm (z x : ℕ → complex_t K) (i j : ℕ) :
    schur_kernel z x j i = conj (schur_kernel z x i j) := by
  unfold schur_kernel
  simp only [complex_t.conj_mul, complex_t.conj_sub, complex_t.conj_one, complex_t.conj_div,
    complex_t.conj_conj, complex_t.conj_I]
  rw [neg_div, ← div_neg, neg_sub]
  ring

theorem schur_kernel_diag (z x : ℕ → complex_t K) (k : ℕ) (hz : 0 < (z k).im) :
    schur_kernel z x k k = ofReal ((1 - normSq (x k)) / (2 * (z k).im)) := by
  unfold schur_kernel
  have hne : (ofReal (2 * (z k).im) : complex_t K) ≠ 0 := by
    intro h
    have := congrArg complex_t.re h
    simp only [complex_t.ofReal_re, complex_t.zero_re] at this
    linarith
  have h2 : (2 * (z k).im) ≠ 0 := by linarith
  rw [complex_t.mul_conj, complex_t.sub_conj_self, mul_comm (ofReal (2 * (z k).im)) I,
    div_mul_eq_div_div, div_self complex_t.I_ne_zero]
  apply complex_t.ext_iff2.2
  constructor
  · simp only [complex_t.mul_re, complex_t.sub_re, complex_t.one_re, complex_t.ofReal_re,
      complex_t.sub_im, complex_t.one_im, complex_t.ofReal_im, complex_t.div_re,
      complex_t.div_im]
    field_simp
  · simp only [complex_t.mul_im, complex_t.sub_re, complex_t.one_re, complex_t.ofReal_re,
      complex_t.sub_im, complex_t.one_im, complex_t.ofReal_im, complex_t.div_re,
      complex_t.div_im]
    field_simp

theorem schur_step_algebra (xi xj' phi phi' bi bj' kij kit ktj ktt : complex_t K)
    (hbi : bi ≠ 0) (hbj : bj' ≠ 0) (hui : 1 - phi' * xi ≠ 0) (huj : 1 - phi * xj' ≠ 0)
    (hktt : ktt ≠ 0) (hb : kij * bi * bj' = kij - kit * ktj / ktt) :
    (1 - (xi - phi) / (bi * (1 - phi' * xi)) * ((xj' - phi') / (bj' * (1 - phi * xj')))) * kij
      = 1 / ktt * (1 / (bi * (1 - phi' * xi))
          * ((1 - phi * phi') * ktt * ((1 - xi * xj') * kij)
              - (1 - xi * phi') * kit * ((1 - phi * xj') * ktj))
          * (1 / (bj' * (1 - phi * xj')))) := by
  have hb' : kij * bi * bj' * ktt = kij * ktt - kit * ktj := by
    rw [hb]
    field_simp
  field_simp
  linear_combination
    ((1 - phi' * xi) * (1 - phi * xj') * (bi * (1 - phi' * xi) * (bj' * (1 - phi * xj')))) * hb'

theorem blaschke_kernel (zi zj zt : complex_t K) (h1 : zi - conj zj ≠ 0)
    (h2 : zi - conj zt ≠ 0) (h3 : zt - conj zj ≠ 0) :
    I / (zi - conj zj) * ((zi - zt) / (zi - conj zt)) * conj ((zj - zt) / (zj - conj zt))
      = I / (zi - conj zj) - I / (zi - conj zt) * (I / (zt - conj zj)) / (I / (zt - conj zt)) := by
  have hI : (I : complex_t K) ≠ 0 := complex_t.I_ne_zero
  have c1 : conj zj - zt ≠ 0 := by
    intro h
    apply h3
    linear_combination -h
  simp only [complex_t.conj_div, complex_t.conj_sub, complex_t.conj_conj]
  field_simp
  ring

theorem conj_ne_zero {x : complex_t K} (h : x ≠ 0) : conj x ≠ 0 := by
  intro h0
  apply h
  have := congrArg conj h0
  simpa using this

theorem normSq_conj (x : complex_t K) : normSq (conj x) = normSq x := by
  simp [normSq]

theorem schur_kernel_bound {S : Finset ℕ} {z x : ℕ → complex_t K}
    (h : psd_on S (schur_kernel z x)) {k : ℕ} (hk : k ∈ S) (hz : 0 < (z k).im) :
    normSq (x k) ≤ 1 := by
  have h1 := psd_on_diag h hk
  rw [schur_kernel_diag z x k hz, complex_t.ofReal_re] at h1
  by_contra hgt
  have : (1 - normSq (x k)) / (2 * (z k).im) < 0 :=
    div_neg_of_neg_of_pos (by linarith) (by linarith)
  linarith

theorem one_sub_conj_mul_ne_zero {p x : complex_t K} (hp : normSq p < 1)
    (hx : normSq x ≤ 1) : 1 - conj p * x ≠ 0 := by
  intro h
  have h1 : conj p * x = 1 := by linear_combination -h
  have h2 : normSq p * normSq x = 1 := by
    rw [← normSq_conj p, ← complex_t.normSq_mul, h1]
    simp [normSq]
  have h3 : normSq p * normSq x ≤ normSq p * 1 :=
    mul_le_mul_of_nonneg_left hx (complex_t.normSq_nonneg p)
  linarith

theorem ofReal_two_im (zt : complex_t K) :
    ofReal (2 * zt.im) = 1 / (I / (zt - conj zt)) := by
  rw [complex_t.sub_conj_self, one_div_div, mul_div_assoc, div_self complex_t.I_ne_zero,
    mul_one]

theorem conj_schur_step (a p b : complex_t K) :
    conj ((a - p) / (b * (1 - conj p * a)))
      = (conj a - conj p) / (conj b * (1 - p * conj a)) := by
  simp only [complex_t.conj_div, complex_t.conj_mul, complex_t.conj_sub, complex_t.conj_one,
    complex_t.conj_conj]

theorem conj_schur_weight (a p b : complex_t K) :
    conj (1 / (b * (1 - conj p * a))) = 1 / (conj b * (1 - p * conj a)) := by
  simp only [complex_t.conj_div, complex_t.conj_mul, complex_t.conj_sub, complex_t.conj_one,
    complex_t.conj_conj]

theorem schur_psd_step (z x x' : ℕ → complex_t K) (t M : ℕ) (ht : t < M)
    (hz : ∀ k, k < M → 0 < (z k).im)
    (hinj : ∀ i j, i < M → j < M → i ≠ j → z i ≠ z j)
    (hpsd : psd_on (Finset.Ico t M) (schur_kernel z x)) (hlt : normSq (x t) < 1)
    (hx' : ∀ i, t < i → i < M →
      x' i = (x i - x t) / ((z i - z t) / (z i - conj (z t)) * (1 - conj (x t) * x i))) :
    psd_on (Finset.Ico (t + 1) M) (schur_kernel z x') := by
  have hins : insert t (Finset.Ico (t + 1) M) = Finset.Ico t M := Nat.Ico_insert_succ_left ht
  have hnot : t ∉ Finset.Ico (t + 1) M := by simp
  have hzt := hz t ht
  have hpos : 0 < (schur_kernel z x t t).re := by
    rw [schur_kernel_diag z x t hzt, complex_t.ofReal_re]
    exact div_pos (by linarith) (by linarith)
  rw [← hins] at hpsd
  have S1 := psd_on_schur_complement hnot (fun i j => schur_kernel_herm z x i j) hpsd hpos
  have S2 := psd_on_conjugate S1
    (fun i => 1 / ((z i - z t) / (z i - conj (z t)) * (1 - conj (x t) * x i)))
  have S3 := psd_on_scale S2 (show 0 ≤ 2 * (z t).im by linarith)
  refine psd_on_congr (fun i hi j hj => ?_) S3
  have hi' := Finset.mem_Ico.mp hi
  have hj' := Finset.mem_Ico.mp hj
  have hmem : ∀ k, k ∈ Finset.Ico (t + 1) M → k ∈ insert t (Finset.Ico (t + 1) M) :=
    fun k hk => Finset.mem_insert_of_mem hk
  have hxi : normSq (x i) ≤ 1 := schur_kernel_bound hpsd (hmem i hi) (hz i hi'.2)
  have hxj : normSq (x j) ≤ 1 := schur_kernel_bound hpsd (hmem j hj) (hz j hj'.2)
  have hbi : (z i - z t) / (z i - conj (z t)) ≠ 0 :=
    div_ne_zero (sub_ne_zero.mpr (hinj i t hi'.2 ht (by omega)))
      (complex_t.sub_conj_ne_zero (hz i hi'.2) hzt)
  have hbj : (z j - z t) / (z j - conj (z t)) ≠ 0 :=
    div_ne_zero (sub_ne_zero.mpr (hinj j t hj'.2 ht (by omega)))
      (complex_t.sub_conj_ne_zero (hz j hj'.2) hzt)
  have huj : 1 - x t * conj (x j) ≠ 0 := by
    have := conj_ne_zero (one_sub_conj_mul_ne_zero hlt hxj)
    simpa using this
  show (1 - x' i * conj (x' j)) * (I / (z i - conj (z j))) = _
  rw [hx' i (by omega) hi'.2, hx' j (by omega) hj'.2, conj_schur_step]
  simp only [conj_schur_weight, ofReal_two_im (z t)]
  exact schur_step_algebra (x i) (conj (x j)) (x t) (conj (x t))
    ((z i - z t) / (z i - conj (z t))) (conj ((z j - z t) / (z j - conj (z t))))
    (I / (z i - conj (z j))) (I / (z i - conj (z t))) (I / (z t - conj (z j)))
    (I / (z t - conj (z t))) hbi (conj_ne_zero hbj) (one_sub_conj_mul_ne_zero hlt hxi) huj
    (div_ne_zero complex_t.I_ne_zero (complex_t.sub_conj_ne_zero hzt hzt))
    (blaschke_kernel (z i) (z j) (z t)
      (complex_t.sub_conj_ne_zero (hz i hi'.2) (hz j hj'.2))
      (complex_t.sub_conj_ne_zero (hz i hi'.2) hzt)
      (complex_t.sub_conj_ne_zero hzt (hz j hj'.2)))

theorem schur_degenerate (z x : ℕ → complex_t K) (t M : ℕ) (ht : t < M)
    (hz : ∀ k, k < M → 0 < (z k).im)
    (hpsd : psd_on (Finset.Ico t M) (schur_kernel z x)) (heq : normSq (x t) = 1)
    (k : ℕ) (htk : t < k) (hk : k < M) : x k = x t := by
  have hzero : schur_kernel z x t t = 0 := by
    rw [schur_kernel_diag z x t (hz t ht), heq, sub_self, zero_div]
    rfl
  have hrow := psd_on_zero_row (fun i j => schur_kernel_herm z x i j) hpsd
    (Finset.mem_Ico.mpr ⟨le_refl t, ht⟩) (Finset.mem_Ico.mpr ⟨by omega, hk⟩)
    (by omega) hzero
  unfold schur_kernel at hrow
  have hk0 : I / (z t - conj (z k)) ≠ 0 :=
    div_ne_zero complex_t.I_ne_zero (complex_t.sub_conj_ne_zero (hz t ht) (hz k hk))
  have h1 : 1 - x t * conj (x k) = 0 := (mul_eq_zero.mp hrow).resolve_right hk0
  have h2 : conj (x t) * x k = 1 := by
    have := congrArg conj h1
    simp only [complex_t.conj_sub, complex_t.conj_one, complex_t.conj_mul,
      complex_t.conj_conj, complex_t.conj_zero] at this
    linear_combination -this
  have h3 : x t * conj (x t) = 1 := by
    rw [complex_t.mul_conj, heq]
    rfl
  calc x k = (x t * conj (x t)) * x k := by rw [h3, one_mul]
    _ = x t * (conj (x t) * x k) := by ring
    _ = x t := by rw [h2, mul_one]

theorem schur_pair_snd_aux (b c n d : complex_t K) (hd : d ≠ 0) :
    b * (d - c * n) = b * (1 - c * (n / d)) * d := by
  field_simp

theorem schur_pair_fst_aux (p n d : complex_t K) (hd : d ≠ 0) :
    n - p * d = (n / d - p) * d := by
  field_simp
  ring

theorem schur_stage (z m phi : ℕ → complex_t K) (M : ℕ)
    (hz : ∀ k, k < M → 0 < (z k).im)
    (hinj : ∀ i j, i < M → j < M → i ≠ j → z i ≠ z j)
    (hphi : ∀ t, t < M → phi t = (schur_pair z m phi t t).1 / (schur_pair z m phi t t).2)
    (hpsd : psd_on (Finset.range M) (schur_kernel z m)) :
    ∀ t, t ≤ M →
      ((∀ k, t ≤ k → k < M → (schur_pair z m phi k t).2 ≠ 0)
        ∧ psd_on (Finset.Ico t M)
            (schur_kernel z fun k =>
              (schur_pair z m phi k t).1 / (schur_pair z m phi k t).2))
      ∨ (∀ k, t ≤ k → k < M → schur_pair z m phi k t = (0, 0)) := by
  intro t
  induction t with
  | zero =>
    intro _
    left
    refine ⟨fun k _ _ => ?_, ?_⟩
    · show (-1 : complex_t K) ≠ 0
      exact neg_ne_zero.mpr one_ne_zero
    · have e : (fun k => (schur_pair z m phi k 0).1 / (schur_pair z m phi k 0).2) = m := by
        funext k
        show -(m k) / -1 = m k
        rw [neg_div_neg_eq, div_one]
      rw [e, ← Finset.range_eq_Ico]
      exact hpsd
  | succ t ih =>
    intro ht
    have htM : t < M := by omega
    rcases ih (by omega) with ⟨hD, hP⟩ | hdead
    · have hphit : phi t = (schur_pair z m phi t t).1 / (schur_pair z m phi t t).2 :=
        hphi t htM
      have hN : ∀ k, t ≤ k → k < M → (schur_pair z m phi k t).1
          = (schur_pair z m phi k t).1 / (schur_pair z m phi k t).2
            * (schur_pair z m phi k t).2 :=
        fun k h1 h2 => (div_mul_cancel₀ _ (hD k h1 h2)).symm
      have hbound := schur_kernel_bound hP (Finset.mem_Ico.mpr ⟨le_refl t, htM⟩) (hz t htM)
      simp only [] at hbound
      rcases lt_or_eq_of_le hbound with hlt | heq
      · left
        have hu : ∀ k, t < k → k < M →
            1 - conj ((schur_pair z m phi t t).1 / (schur_pair z m phi t t).2)
              * ((schur_pair z m phi k t).1 / (schur_pair z m phi k t).2) ≠ 0 :=
          fun k h1 h2 => one_sub_conj_mul_ne_zero hlt
            (schur_kernel_bound hP (Finset.mem_Ico.mpr ⟨by omega, h2⟩) (hz k h2))
        have hb : ∀ k, t < k → k < M → (z k - z t) / (z k - conj (z t)) ≠ 0 :=
          fun k h1 h2 => div_ne_zero (sub_ne_zero.mpr (hinj k t h2 htM (by omega)))
            (complex_t.sub_conj_ne_zero (hz k h2) (hz t htM))
        have hsnd : ∀ k, t < k → k < M → (schur_pair z m phi k (t + 1)).2
            = (z k - z t) / (z k - conj (z t))
              * (1 - conj ((schur_pair z m phi t t).1 / (schur_pair z m phi t t).2)
                * ((schur_pair z m phi k t).1 / (schur_pair z m phi k t).2))
              * (schur_pair z m phi k t).2 := by
          intro k h1 h2
          show (z k - z t) / (z k - conj (z t))
            * ((schur_pair z m phi k t).2 - conj (phi t) * (schur_pair z m phi k t).1) = _
          rw [hphit]
          exact schur_pair_snd_aux _ _ _ _ (hD k (by omega) h2)
        have hfst : ∀ k, t < k → k < M → (schur_pair z m phi k (t + 1)).1
            = ((schur_pair z m phi k t).1 / (schur_pair z m phi k t).2
                - (schur_pair z m phi t t).1 / (schur_pair z m phi t t).2)
              * (schur_pair z m phi k t).2 := by
          intro k h1 h2
          show (schur_pair z m phi k t).1 - phi t * (schur_pair z m phi k t).2 = _
          rw [hphit]
          exact schur_pair_fst_aux _ _ _ (hD k (by omega) h2)
        refine ⟨fun k h1 h2 => ?_, ?_⟩
        · rw [hsnd k (by omega) h2]
          exact mul_ne_zero (mul_ne_zero (hb k (by omega) h2) (hu k (by omega) h2))
            (hD k (by omega) h2)
        · apply schur_psd_step z _ _ t M htM hz hinj hP hlt
          intro i h1 h2
          show (schur_pair z m phi i (t + 1)).1 / (schur_pair z m phi i (t + 1)).2 = _
          rw [hfst i h1 h2, hsnd i h1 h2]
          exact mul_div_mul_right _ _ (hD i (by omega) h2)
      · right
        intro k h1 h2
        have hxk := schur_degenerate z _ t M htM hz hP heq k (by omega) h2
        simp only [] at hxk
        have h3 : (schur_pair z m phi t t).1 / (schur_pair z m phi t t).2
            * conj ((schur_pair z m phi t t).1 / (schur_pair z m phi t t).2) = 1 := by
          rw [complex_t.mul_conj, heq]
          rfl
        have hNk := hN k (by omega) h2
        rw [hxk] at hNk
        show ((schur_pair z m phi k t).1 - phi t * (schur_pair z m phi k t).2,
          (z k - z t) / (z k - conj (z t))
            * ((schur_pair z m phi k t).2 - conj (phi t) * (schur_pair z m phi k t).1))
          = (0, 0)
        rw [hphit]
        refine Prod.ext ?_ ?_
        · show (schur_pair z m phi k t).1 - _ * (schur_pair z m phi k t).2 = 0
          rw [← hNk, sub_self]
        · show (z k - z t) / (z k - conj (z t)) * ((schur_pair z m phi k t).2
            - conj ((schur_pair z m phi t t).1 / (schur_pair z m phi t t).2)
              * (schur_pair z m phi k t).1) = 0
          rw [hNk]
          linear_combination (-((z k - z t) / (z k - conj (z t)))
            * (schur_pair z m phi k t).2) * h3
    · right
      intro k h1 h2
      have hk := hdead k (by omega) h2
      show ((schur_pair z m phi k t).1 - phi t * (schur_pair z m phi k t).2,
        (z k - z t) / (z k - conj (z t))
          * ((schur_pair z m phi k t).2 - conj (phi t) * (schur_pair z m phi k t).1))
        = (0, 0)
      rw [hk]
      simp

theorem schur_bound (z m phi : ℕ → complex_t K) (M : ℕ)
    (hz : ∀ k, k < M → 0 < (z k).im)
    (hinj : ∀ i j, i < M → j < M → i ≠ j → z i ≠ z j)
    (hphi : ∀ t, t < M → phi t = (schur_pair z m phi t t).1 / (schur_pair z m phi t t).2)
    (hpsd : psd_on (Finset.range M) (schur_kernel z m)) :
    ∀ t, t < M → normSq (phi t) ≤ 1
      ∧ ((schur_pair z m phi t t).2 = 0 → (schur_pair z m phi t t).1 = 0) := by
  intro t ht
  rcases schur_stage z m phi M hz hinj hphi hpsd t (le_of_lt ht) with ⟨hD, hP⟩ | hdead
  · refine ⟨?_, fun h0 => absurd h0 (hD t (le_refl t) ht)⟩
    rw [hphi t ht]
    exact schur_kernel_bound hP (Finset.mem_Ico.mpr ⟨le_refl t, ht⟩) (hz t ht)
  · refine ⟨?_, fun _ => by rw [hdead t (le_refl t) ht]⟩
    rw [hphi t ht, hdead t (le_refl t) ht]
    simp [normSq]

end schur

/-! ## From the Pick criterion to the parameters computed by `solve` -/

section bridge
variable {K : Type} [LinearOrderedField K]

open complex_t (conj ofReal normSq I)

theorem schur_pair_eq_ordered_product (phis zs mdata : List (complex_t K)) (k : ℕ) :
    ∀ t, schur_pair (fun i => zs.getD i 0) (fun i => mdata.getD i 0)
        (fun i => phis.getD i 0) k t
      = (-(ordered_product phis zs (zs.getD k 0) t).a11 * mdata.getD k 0
            + (ordered_product phis zs (zs.getD k 0) t).a01,
          (ordered_product phis zs (zs.getD k 0) t).a10 * mdata.getD k 0
            - (ordered_product phis zs (zs.getD k 0) t).a00) := by
  intro t
  induction t with
  | zero =>
    show (-(mdata.getD k 0), (-1 : complex_t K))
      = (-(1 : complex_t K) * mdata.getD k 0 + 0, 0 * mdata.getD k 0 - 1)
    rw [neg_one_mul, add_zero, zero_mul, zero_sub]
  | succ t ih =>
    have h1 := congrArg Prod.fst ih
    have h2 := congrArg Prod.snd ih
    simp only [] at h1 h2
    rw [schur_pair, h1, h2]
    refine Prod.ext ?_ ?_
    · show _ = -((ordered_product phis zs (zs.getD k 0) t).a10 * phis.getD t 0
          + (ordered_product phis zs (zs.getD k 0) t).a11 * 1) * mdata.getD k 0
        + ((ordered_product phis zs (zs.getD k 0) t).a00 * phis.getD t 0
          + (ordered_product phis zs (zs.getD k 0) t).a01 * 1)
      simp only []
      ring
    · show _ = ((ordered_product phis zs (zs.getD k 0) t).a10
            * ((zs.getD k 0 - zs.getD t 0) / (zs.getD k 0 - conj (zs.getD t 0)))
          + (ordered_product phis zs (zs.getD k 0) t).a11
            * (conj (phis.getD t 0)
              * ((zs.getD k 0 - zs.getD t 0) / (zs.getD k 0 - conj (zs.getD t 0)))))
          * mdata.getD k 0
        - ((ordered_product phis zs (zs.getD k 0) t).a00
            * ((zs.getD k 0 - zs.getD t 0) / (zs.getD k 0 - conj (zs.getD t 0)))
          + (ordered_product phis zs (zs.getD k 0) t).a01
            * (conj (phis.getD t 0)
              * ((zs.getD k 0 - zs.getD t 0) / (zs.getD k 0 - conj (zs.getD t 0)))))
      simp only []
      ring

theorem pick_entry_diag_re (w z : complex_t K) (hz : 0 < z.im) :
    ((w - conj w) / (z - conj z)).re = w.im / z.im := by
  simp only [complex_t.div_re, complex_t.sub_re, complex_t.sub_im, complex_t.conj_re,
    complex_t.conj_im]
  have h : z.im ≠ 0 := by linarith
  field_simp
  ring

theorem mobius_kernel_eq_pick (zi zj di dj : complex_t K) (hz : zi - conj zj ≠ 0)
    (hi : -di + I ≠ 0) (hj : -dj + I ≠ 0) :
    (1 - mobius di * conj (mobius dj)) * (I / (zi - conj zj))
      = ofReal 2 * (1 / (-di + I) * ((-di - conj (-dj)) / (zi - conj zj))
          * conj (1 / (-dj + I))) := by
  have h2 : (ofReal 2 : complex_t K) = 1 + 1 := by
    apply complex_t.ext_iff2.2
    constructor <;> simp
    norm_num
  have hj' : -conj dj + -I ≠ 0 := by
    have := conj_ne_zero hj
    simpa using this
  unfold mobius
  rw [h2]
  simp only [complex_t.conj_div, complex_t.conj_sub, complex_t.conj_add, complex_t.conj_neg,
    complex_t.conj_I, complex_t.conj_one]
  field_simp
  linear_combination (2 * (di - conj dj) * ((-di + I) * (zi - conj zj) * (-conj dj + -I)))
    * (I_mul_I : (I : complex_t K) * I = -1)

theorem mobius_trasformation_getD (data : List (complex_t K)) (k : ℕ)
    (hk : k < data.length) : (mobius_trasformation data).getD k 0 = mobius (data.getD k 0) := by
  simp [mobius_trasformation_eq, List.getD_eq_getElem?_getD, List.getElem?_eq_getElem hk]

theorem kernel_psd_of_pick (mesh data : List (complex_t K))
    (hlen : mesh.length = data.length)
    (hupper : ∀ k, k < mesh.length → 0 < (mesh.getD k 0).im)
    (hpick : positive_semidefinite mesh.length (pick_matrix mesh data)) :
    psd_on (Finset.range mesh.length)
      (schur_kernel (fun i => mesh.getD i 0)
        (fun i => (mobius_trasformation data).getD i 0)) := by
  have h0 := psd_on_range_of_positive_semidefinite hpick
  have hw : ∀ k, k < mesh.length → -(data.getD k 0) + I ≠ 0 := by
    intro k hk
    have h1 := psd_on_diag h0 (Finset.mem_range.mpr hk)
    rw [show pick_matrix mesh data k k
        = (-(data.getD k 0) - conj (-(data.getD k 0)))
          / (mesh.getD k 0 - conj (mesh.getD k 0)) from rfl,
      pick_entry_diag_re _ _ (hupper k hk)] at h1
    have h2 : 0 ≤ (-(data.getD k 0)).im := by
      by_contra hneg
      have := div_neg_of_neg_of_pos (not_le.mp hneg) (hupper k hk)
      linarith
    apply complex_t.ne_zero_of_im_ne
    simp only [complex_t.add_im, complex_t.I_im]
    linarith
  have S2 := psd_on_conjugate h0 (fun i => 1 / (-(data.getD i 0) + I))
  have S3 := psd_on_scale S2 (show (0 : K) ≤ 2 by norm_num)
  refine psd_on_congr (fun i hi j hj => ?_) S3
  have hi' := Finset.mem_range.mp hi
  have hj' := Finset.mem_range.mp hj
  show (1 - (mobius_trasformation data).getD i 0
      * conj ((mobius_trasformation data).getD j 0))
      * (I / (mesh.getD i 0 - conj (mesh.getD j 0))) = _
  rw [mobius_trasformation_getD data i (by omega), mobius_trasformation_getD data j (by omega)]
  exact mobius_kernel_eq_pick _ _ _ _
    (complex_t.sub_conj_ne_zero (hupper i hi') (hupper j hj')) (hw i hi') (hw j hj')

theorem solve_invariant_phi (s' : solver K) (mesh data : List (complex_t K))
    (hinv : solve_invariant mesh (mobius_trasformation data) mesh.length (mesh.length - 1) s')
    (t : ℕ) (ht : t < mesh.length) :
    s'._phis.getD t 0
      = next_parameter (ordered_product s'._phis mesh (mesh.getD t 0) t)
          ((mobius_trasformation data).getD t 0) := by
  obtain ⟨_, _, _, h4, h5, _⟩ := hinv
  cases t with
  | zero =>
    show s'._phis.getD 0 0 = (-(1 : complex_t K) * (mobius_trasformation data).getD 0 0 + 0)
      / (0 * (mobius_trasformation data).getD 0 0 - 1)
    rw [neg_one_mul, add_zero, zero_mul, zero_sub, neg_div_neg_eq, div_one,
      List.getD_eq_getElem?_getD, List.getD_eq_getElem?_getD, h4]
  | succ t =>
    rw [List.getD_eq_getElem?_getD, h5 t (by omega)]
    rfl

theorem solve_invariant_bounded (s' : solver K) (mesh data : List (complex_t K))
    (hlen : mesh.length = data.length)
    (hinv : solve_invariant mesh (mobius_trasformation data) mesh.length (mesh.length - 1) s')
    (hupper : ∀ k, k < mesh.length → 0 < (mesh.getD k 0).im)
    (hdist : ∀ i j, i < mesh.length → j < mesh.length → i ≠ j →
      mesh.getD i 0 ≠ mesh.getD j 0)
    (hpick : positive_semidefinite mesh.length (pick_matrix mesh data)) :
    ∀ j, j < mesh.length → normSq (s'._phis.getD j 0) ≤ 1
      ∧ ((ordered_product s'._phis mesh (mesh.getD j 0) j).a10
            * (mobius_trasformation data).getD j 0
          - (ordered_product s'._phis mesh (mesh.getD j 0) j).a00 = 0 →
        -(ordered_product s'._phis mesh (mesh.getD j 0) j).a11
            * (mobius_trasformation data).getD j 0
          + (ordered_product s'._phis mesh (mesh.getD j 0) j).a01 = 0) := by
  intro j hj
  have key := schur_bound (fun i => mesh.getD i 0)
    (fun i => (mobius_trasformation data).getD i 0)
    (fun i => s'._phis.getD i 0) mesh.length hupper hdist
    (fun t ht => by
      rw [schur_pair_eq_ordered_product s'._phis mesh (mobius_trasformation data) t t]
      exact solve_invariant_phi s' mesh data hinv t ht)
    (kernel_psd_of_pick mesh data hlen hupper hpick) j hj
  rw [schur_pair_eq_ordered_product s'._phis mesh (mobius_trasformation data) j j] at key
  exact key

theorem neg_add_I_ne_zero (d : complex_t K) (h : d.im ≤ 0) : -d + I ≠ 0 := by
  apply complex_t.ne_zero_of_im_ne
  simp only [complex_t.add_im, complex_t.neg_im, complex_t.I_im]
  linarith

theorem pick_data_im_nonpos (mesh data : List (complex_t K))
    (hpick : positive_semidefinite mesh.length (pick_matrix mesh data)) (j : ℕ)
    (hj : j < mesh.length) (hz : 0 < (mesh.getD j 0).im) : (data.getD j 0).im ≤ 0 := by
  have h := psd_on_diag (psd_on_range_of_positive_semidefinite hpick) (Finset.mem_range.mpr hj)
  unfold pick_matrix at h
  rw [pick_entry_diag_re _ _ hz, complex_t.neg_im] at h
  by_contra hpos
  have hneg : -(data.getD j 0).im / (mesh.getD j 0).im < 0 :=
    div_neg_of_neg_of_pos (by linarith) hz
  linarith

end bridge


/-! ## Entries of products of elementary factors -/

section matrix_lemmas
variable {K : Type} [LinearOrderedField K]

open complex_t (conj normSq I)

namespace matrix_t

@[simp] theorem mul_a00 (A B : matrix_t K) : (A * B).a00 = A.a00 * B.a00 + A.a01 * B.a10 := rfl
@[simp] theorem mul_a01 (A B : matrix_t K) : (A * B).a01 = A.a00 * B.a01 + A.a01 * B.a11 := rfl
@[simp] theorem mul_a10 (A B : matrix_t K) : (A * B).a10 = A.a10 * B.a00 + A.a11 * B.a10 := rfl
@[simp] theorem mul_a11 (A B : matrix_t K) : (A * B).a11 = A.a10 * B.a01 + A.a11 * B.a11 := rfl
@[simp] theorem Identity_a00 : (Identity : matrix_t K).a00 = 1 := rfl
@[simp] theorem Identity_a01 : (Identity : matrix_t K).a01 = 0 := rfl
@[simp] theorem Identity_a10 : (Identity : matrix_t K).a10 = 0 := rfl
@[simp] theorem Identity_a11 : (Identity : matrix_t K).a11 = 1 := rfl

end matrix_t

@[simp] theorem elementary_factor_a00 (z zj p : complex_t K) :
    (elementary_factor z zj p).a00 = (z - zj) / (z - conj zj) := rfl
@[simp] theorem elementary_factor_a01 (z zj p : complex_t K) :
    (elementary_factor z zj p).a01 = p := rfl
@[simp] theorem elementary_factor_a10 (z zj p : complex_t K) :
    (elementary_factor z zj p).a10 = conj p * ((z - zj) / (z - conj zj)) := rfl
@[simp] theorem elementary_factor_a11 (z zj p : complex_t K) :
    (elementary_factor z zj p).a11 = 1 := rfl

theorem ordered_product_succ (phis zs : List (complex_t K)) (z : complex_t K) (n : ℕ) :
    ordered_product phis zs z (n + 1)
      = ordered_product phis zs z n * elementary_factor z (zs.getD n 0) (phis.getD n 0) := rfl

end matrix_lemmas


/-! ## Duplicate abscissas -/

section duplicates
variable {K : Type} [LinearOrderedField K]

open complex_t (conj normSq I)

end duplicates


/-! ## Contraction of the elementary factors and interpolation -/

section contraction
variable {K : Type} [LinearOrderedField K]

open complex_t (conj normSq I ofReal)

theorem ordered_product_tail (phis zs : List (complex_t K)) (z : complex_t K) (M : ℕ) :
    ∀ n, n ≤ M →
      (ordered_product phis zs z M).a01
          = (ordered_product phis zs z (M - n)).a00 * (tail_vector phis zs z M n).1
            + (ordered_product phis zs z (M - n)).a01 * (tail_vector phis zs z M n).2
        ∧ (ordered_product phis zs z M).a11
          = (ordered_product phis zs z (M - n)).a10 * (tail_vector phis zs z M n).1
            + (ordered_product phis zs z (M - n)).a11 * (tail_vector phis zs z M n).2 := by
  intro n
  induction n with
  | zero =>
    intro _
    constructor
    · show _ = (ordered_product phis zs z M).a00 * 0 + (ordered_product phis zs z M).a01 * 1
      rw [mul_zero, zero_add, mul_one]
    · show _ = (ordered_product phis zs z M).a10 * 0 + (ordered_product phis zs z M).a11 * 1
      rw [mul_zero, zero_add, mul_one]
  | succ n ih =>
    intro hn
    obtain ⟨h1, h2⟩ := ih (by omega)
    have e : M - n = (M - (n + 1)) + 1 := by omega
    rw [e, ordered_product_succ] at h1 h2
    rw [h1, h2]
    simp only [matrix_t.mul_a00, matrix_t.mul_a01, matrix_t.mul_a10, matrix_t.mul_a11,
      tail_vector]
    constructor <;> ring

theorem blaschke_normSq_le_one (z zj : complex_t K) (hz : 0 < z.im) (hzj : 0 < zj.im) :
    normSq ((z - zj) / (z - conj zj)) ≤ 1 := by
  rw [complex_t.normSq_div]
  have hpos : 0 < normSq (z - conj zj) := by
    simp only [normSq, complex_t.sub_re, complex_t.sub_im, complex_t.conj_re,
      complex_t.conj_im]
    nlinarith [mul_self_nonneg (z.re - zj.re), mul_pos hz hzj]
  rw [div_le_one hpos]
  simp only [normSq, complex_t.sub_re, complex_t.sub_im, complex_t.conj_re, complex_t.conj_im]
  nlinarith [mul_pos hz hzj]

theorem contraction_identity (b p q phi : complex_t K) :
    normSq (conj phi * b * p + 1 * q) - normSq (b * p + phi * q)
      = (1 - normSq phi) * (normSq q - normSq b * normSq p) := by
  simp only [normSq, complex_t.mul_re, complex_t.mul_im, complex_t.add_re, complex_t.add_im,
    complex_t.conj_re, complex_t.conj_im, complex_t.one_re, complex_t.one_im]
  ring

theorem contraction_step (b p q phi : complex_t K) (hb : normSq b ≤ 1)
    (hphi : normSq phi < 1) (h : normSq p < normSq q) :
    normSq (b * p + phi * q) < normSq (conj phi * b * p + 1 * q) := by
  have key := contraction_identity b p q phi
  have h1 : 0 < normSq q - normSq b * normSq p := by
    nlinarith [complex_t.normSq_nonneg p, complex_t.normSq_nonneg b]
  have h2 : 0 < (1 - normSq phi) * (normSq q - normSq b * normSq p) :=
    mul_pos (by linarith) h1
  linarith

theorem tail_vector_contractive (phis zs : List (complex_t K)) (z : complex_t K) (M : ℕ)
    (hz : 0 < z.im) (hzs : ∀ j, j < M → 0 < (zs.getD j 0).im)
    (hphis : ∀ j, j < M → normSq (phis.getD j 0) < 1) :
    ∀ n, n ≤ M → normSq (tail_vector phis zs z M n).1 < normSq (tail_vector phis zs z M n).2 := by
  intro n
  induction n with
  | zero =>
    intro _
    show normSq (0 : complex_t K) < normSq (1 : complex_t K)
    simp [normSq]
  | succ n ih =>
    intro hn
    have hlt : M - (n + 1) < M := by omega
    have := contraction_step
      ((z - zs.getD (M - (n + 1)) 0) / (z - conj (zs.getD (M - (n + 1)) 0)))
      (tail_vector phis zs z M n).1 (tail_vector phis zs z M n).2
      (phis.getD (M - (n + 1)) 0)
      (blaschke_normSq_le_one z _ hz (hzs _ hlt)) (hphis _ hlt) (ih (by omega))
    simp only [tail_vector, elementary_factor_a00, elementary_factor_a01,
      elementary_factor_a10, elementary_factor_a11]
    exact this

theorem ne_zero_of_normSq_pos {x : complex_t K} (h : 0 < normSq x) : x ≠ 0 := by
  intro h0
  rw [h0] at h
  simp [normSq] at h

theorem inverse_mobius_im (theta : complex_t K) :
    (inverse_mobius theta).im = (1 - normSq theta) / normSq (1 - theta) := by
  unfold inverse_mobius
  simp only [complex_t.div_im, complex_t.mul_re, complex_t.mul_im, complex_t.add_re,
    complex_t.add_im, complex_t.sub_re, complex_t.sub_im, complex_t.one_re, complex_t.one_im,
    complex_t.I_re, complex_t.I_im, normSq]
  congr 1
  ring

theorem evaluate_theta_contractive (phis zs : List (complex_t K)) (z : complex_t K) (M : ℕ)
    (hz : 0 < z.im) (hzs : ∀ j, j < M → 0 < (zs.getD j 0).im)
    (hphis : ∀ j, j < M → normSq (phis.getD j 0) < 1) :
    (ordered_product phis zs z M).a11 ≠ 0
      ∧ normSq ((ordered_product phis zs z M).a01 / (ordered_product phis zs z M).a11) < 1 := by
  obtain ⟨h1, h2⟩ := ordered_product_tail phis zs z M M (le_refl M)
  have hc := tail_vector_contractive phis zs z M hz hzs hphis M (le_refl M)
  rw [Nat.sub_self] at h1 h2
  have e1 : (ordered_product phis zs z M).a01 = (tail_vector phis zs z M M).1 := by
    rw [h1]
    show (1 : complex_t K) * _ + 0 * _ = _
    ring
  have e2 : (ordered_product phis zs z M).a11 = (tail_vector phis zs z M M).2 := by
    rw [h2]
    show (0 : complex_t K) * _ + 1 * _ = _
    ring
  have hq : 0 < normSq (tail_vector phis zs z M M).2 :=
    lt_of_le_of_lt (complex_t.normSq_nonneg _) hc
  rw [e1, e2, complex_t.normSq_div, div_lt_one hq]
  exact ⟨ne_zero_of_normSq_pos hq, hc⟩

theorem det_mul (A B : matrix_t K) : (A * B).det = A.det * B.det := by
  simp only [matrix_t.det, matrix_t.mul_a00, matrix_t.mul_a01, matrix_t.mul_a10,
    matrix_t.mul_a11]
  ring

theorem det_elementary_factor (z zj phi : complex_t K) :
    (elementary_factor z zj phi).det = (z - zj) / (z - conj zj) * (1 - phi * conj phi) := by
  simp only [matrix_t.det, elementary_factor_a00, elementary_factor_a01, elementary_factor_a10,
    elementary_factor_a11]
  ring

theorem one_sub_mul_conj_ne_zero {phi : complex_t K} (h : normSq phi < 1) :
    1 - phi * conj phi ≠ 0 := by
  intro h0
  have := congrArg complex_t.re h0
  rw [complex_t.mul_conj] at this
  simp only [complex_t.sub_re, complex_t.one_re, complex_t.ofReal_re, complex_t.zero_re] at this
  linarith

theorem det_ordered_product_ne_zero (phis zs : List (complex_t K)) (z : complex_t K) :
    ∀ t, (∀ i, i < t → (z - zs.getD i 0) / (z - conj (zs.getD i 0)) ≠ 0
        ∧ normSq (phis.getD i 0) < 1) →
      (ordered_product phis zs z t).det ≠ 0 := by
  intro t
  induction t with
  | zero =>
    intro _
    show (1 : complex_t K) * 1 - 0 * 0 ≠ 0
    rw [mul_one, mul_zero, sub_zero]
    exact one_ne_zero
  | succ t ih =>
    intro h
    rw [ordered_product_succ, det_mul, det_elementary_factor]
    exact mul_ne_zero (ih fun i hi => h i (by omega))
      (mul_ne_zero (h t (by omega)).1 (one_sub_mul_conj_ne_zero (h t (by omega)).2))

theorem mobius_action_inverse (P : matrix_t K) (m q : complex_t K)
    (hD : P.a10 * m - P.a00 ≠ 0) (hdet : P.det ≠ 0) (hq : q ≠ 0) :
    ((P.a00 * next_parameter P m + P.a01 * 1) * q)
        / ((P.a10 * next_parameter P m + P.a11 * 1) * q) = m := by
  unfold matrix_t.det at hdet
  have h1 : P.a00 * next_parameter P m + P.a01 * 1
      = -m * (P.a00 * P.a11 - P.a01 * P.a10) / (P.a10 * m - P.a00) := by
    unfold next_parameter
    field_simp
    ring
  have h2 : P.a10 * next_parameter P m + P.a11 * 1
      = -(P.a00 * P.a11 - P.a01 * P.a10) / (P.a10 * m - P.a00) := by
    unfold next_parameter
    field_simp
    ring
  have hdet2 : P.a01 * P.a10 - P.a00 * P.a11 ≠ 0 := by
    intro h0
    apply hdet
    linear_combination -h0
  rw [h1, h2]
  field_simp
  ring

theorem evaluate_theta_at_node (s' : solver K) (mesh data : List (complex_t K))
    (hinv : solve_invariant mesh (mobius_trasformation data) mesh.length (mesh.length - 1) s')
    (hupper : ∀ j, j < mesh.length → 0 < (mesh.getD j 0).im)
    (hdist : ∀ i j, i < mesh.length → j < mesh.length → i ≠ j →
      mesh.getD i 0 ≠ mesh.getD j 0)
    (hden : ∀ j, j + 1 < mesh.length →
      (ordered_product s'._phis mesh (mesh.getD (j + 1) 0) (j + 1)).a10
          * (mobius_trasformation data).getD (j + 1) 0
        - (ordered_product s'._phis mesh (mesh.getD (j + 1) 0) (j + 1)).a00 ≠ 0)
    (hphi : ∀ j, j < mesh.length → normSq (s'._phis.getD j 0) < 1)
    (k : ℕ) (hk : k < mesh.length) :
    (ordered_product s'._phis mesh (mesh.getD k 0) mesh.length).a01
        / (ordered_product s'._phis mesh (mesh.getD k 0) mesh.length).a11
      = (mobius_trasformation data).getD k 0 := by
  have hphik := solve_invariant_phi s' mesh data hinv k hk
  have hD : (ordered_product s'._phis mesh (mesh.getD k 0) k).a10
        * (mobius_trasformation data).getD k 0
      - (ordered_product s'._phis mesh (mesh.getD k 0) k).a00 ≠ 0 := by
    cases k with
    | zero =>
      show (0 : complex_t K) * _ - 1 ≠ 0
      rw [zero_mul, zero_sub]
      exact neg_ne_zero.mpr one_ne_zero
    | succ j => exact hden j hk
  have hdet : (ordered_product s'._phis mesh (mesh.getD k 0) k).det ≠ 0 :=
    det_ordered_product_ne_zero s'._phis mesh (mesh.getD k 0) k fun i hi =>
      ⟨div_ne_zero (sub_ne_zero.mpr (hdist k i hk (by omega) (by omega)))
          (complex_t.sub_conj_ne_zero (hupper k hk) (hupper i (by omega))),
        hphi i (by omega)⟩
  obtain ⟨h1, h2⟩ := ordered_product_tail s'._phis mesh (mesh.getD k 0) mesh.length
    (mesh.length - (k + 1)) (by omega)
  have hc := tail_vector_contractive s'._phis mesh (mesh.getD k 0) mesh.length (hupper k hk)
    hupper hphi (mesh.length - (k + 1)) (by omega)
  have hq : (tail_vector s'._phis mesh (mesh.getD k 0) mesh.length
      (mesh.length - (k + 1))).2 ≠ 0 :=
    ne_zero_of_normSq_pos (lt_of_le_of_lt (complex_t.normSq_nonneg _) hc)
  have e : mesh.length - (mesh.length - (k + 1)) = k + 1 := by omega
  rw [e, ordered_product_succ] at h1 h2
  simp only [matrix_t.mul_a00, matrix_t.mul_a01, matrix_t.mul_a10, matrix_t.mul_a11,
    elementary_factor_a00, elementary_factor_a01, elementary_factor_a10,
    elementary_factor_a11, sub_self, zero_div, mul_zero, add_zero, zero_mul, zero_add]
    at h1 h2
  rw [h1, h2, hphik]
  exact mobius_action_inverse _ _ _ hD hdet hq

end contraction


/-! ## The host-function overload `solve(g_iw)` -/

section host
variable {K : Type} [LinearOrderedField K]

theorem take_set_succ {α : Type} (l : List α) (i : Nat) (x : α) (h : i < l.length) :
    (l.set i x).take (i + 1) = l.take i ++ [x] := by
  induction l generalizing i with
  | nil => simp at h
  | cons a t ih =>
    cases i with
    | zero => simp
    | succ n =>
      have hn : n < t.length := by simpa using h
      simp [ih n hn]

theorem drop_set_succ {α : Type} (l : List α) (i k : Nat) (x : α) :
    (l.set i x).drop (i + 1 + k) = l.drop (i + 1 + k) := by
  induction l generalizing i with
  | nil => simp
  | cons a t ih =>
    cases i with
    | zero =>
      have e : 0 + 1 + k = k + 1 := by omega
      rw [e, List.set_cons_zero, List.drop_succ_cons, List.drop_succ_cons]
    | succ n =>
      have e : n + 1 + 1 + k = (n + 1 + k) + 1 := by omega
      rw [e, List.set_cons_succ, List.drop_succ_cons, List.drop_succ_cons]
      exact ih n

/-- The loop of `solve(g_iw)` succeeds when the remaining kept points fit into the
arrays, and then overwrites the entries `i, i+1, …` with the kept points and their
values, in mesh order. -/
theorem solve_gf_loop_spec (g : gf_imfreq K) :
    ∀ (pts : List (complex_t K)) (j i : Nat) (data mesh : List (complex_t K)),
      j + pts.length ≤ g.data.length →
      i + (pts.filter (fun p => decide (¬ p.im < 0))).length ≤ data.length →
      i + (pts.filter (fun p => decide (¬ p.im < 0))).length ≤ mesh.length →
      solve_gf_loop g pts j i data mesh
        = .ok (data.take i
              ++ ((pts.zip (g.data.drop j)).filter (fun q => decide (¬ q.1.im < 0))).map
                  Prod.snd
              ++ data.drop (i + (pts.filter (fun p => decide (¬ p.im < 0))).length),
            mesh.take i ++ pts.filter (fun p => decide (¬ p.im < 0))
              ++ mesh.drop (i + (pts.filter (fun p => decide (¬ p.im < 0))).length)) := by
  intro pts
  induction pts with
  | nil =>
    intro j i data mesh _ _ _
    simp [solve_gf_loop]
  | cons pt rest ih =>
    intro j i data mesh hj hd hm
    have hjlt : j < g.data.length := by
      simp only [List.length_cons] at hj
      omega
    have hdrop : g.data.drop j = g.data[j] :: g.data.drop (j + 1) :=
      List.drop_eq_getElem_cons hjlt
    have hj' : j + 1 + rest.length ≤ g.data.length := by
      simp only [List.length_cons] at hj
      omega
    rw [solve_gf_loop, hdrop, List.zip_cons_cons]
    by_cases hneg : pt.im < 0
    · have hf : (pt :: rest).filter (fun p => decide (¬ p.im < 0))
          = rest.filter (fun p => decide (¬ p.im < 0)) := by
        simp [List.filter_cons, hneg]
      rw [hf] at hd hm ⊢
      rw [if_pos hneg, ih (j + 1) i data mesh hj' hd hm]
      simp [List.filter_cons, hneg]
    · have hf : (pt :: rest).filter (fun p => decide (¬ p.im < 0))
          = pt :: rest.filter (fun p => decide (¬ p.im < 0)) := by
        simp [List.filter_cons, hneg]
      rw [hf] at hd hm ⊢
      simp only [List.length_cons] at hd hm ⊢
      have hid : i < data.length := by omega
      have him : i < mesh.length := by omega
      have hr : read g.data j = .ok g.data[j] := by
        simp [read, List.getElem?_eq_getElem hjlt]
      have hwd : write data i g.data[j] = .ok (data.set i g.data[j]) := by
        simp [write, hid]
      have hwm : write mesh i pt = .ok (mesh.set i pt) := by
        simp [write, him]
      rw [if_neg hneg, hr]
      show (write data i g.data[j] >>= fun data' =>
          write mesh i pt >>= fun mesh' =>
            solve_gf_loop g rest (j + 1) (i + 1) data' mesh') = _
      rw [hwd]
      show (write mesh i pt >>= fun mesh' =>
            solve_gf_loop g rest (j + 1) (i + 1) (data.set i g.data[j]) mesh') = _
      rw [hwm]
      show solve_gf_loop g rest (j + 1) (i + 1) (data.set i g.data[j]) (mesh.set i pt) = _
      rw [ih (j + 1) (i + 1) _ _ hj' (by rw [List.length_set]; omega)
        (by rw [List.length_set]; omega)]
      rw [take_set_succ data i _ hid, take_set_succ mesh i _ him, drop_set_succ,
        drop_set_succ]
      have e : i + ((rest.filter (fun p => decide (¬ p.im < 0))).length + 1)
          = i + 1 + (rest.filter (fun p => decide (¬ p.im < 0))).length := by omega
      rw [e]
      have hge : 0 ≤ pt.im := not_lt.mp hneg
      simp [List.filter_cons, hge]

/-- When more points have `Im ≥ 0` than the arrays have entries, a write of the
loop of `solve(g_iw)` falls outside the arrays. -/
theorem solve_gf_loop_overflow (g : gf_imfreq K) :
    ∀ (pts : List (complex_t K)) (j i : Nat) (data mesh : List (complex_t K)),
      j + pts.length ≤ g.data.length → data.length = mesh.length → i ≤ data.length →
      data.length < i + (pts.filter (fun p => decide (¬ p.im < 0))).length →
      solve_gf_loop g pts j i data mesh = .error .out_of_range := by
  intro pts
  induction pts with
  | nil =>
    intro j i data mesh _ _ hi h
    simp only [List.filter_nil, List.length_nil] at h
    omega
  | cons pt rest ih =>
    intro j i data mesh hj hlen hi h
    have hjlt : j < g.data.length := by
      simp only [List.length_cons] at hj
      omega
    have hj' : j + 1 + rest.length ≤ g.data.length := by
      simp only [List.length_cons] at hj
      omega
    rw [solve_gf_loop]
    by_cases hneg : pt.im < 0
    · have hf : (pt :: rest).filter (fun p => decide (¬ p.im < 0))
          = rest.filter (fun p => decide (¬ p.im < 0)) := by
        simp [List.filter_cons, hneg]
      rw [hf] at h
      rw [if_pos hneg]
      exact ih (j + 1) i data mesh hj' hlen hi h
    · have hf : (pt :: rest).filter (fun p => decide (¬ p.im < 0))
          = pt :: rest.filter (fun p => decide (¬ p.im < 0)) := by
        simp [List.filter_cons, hneg]
      rw [hf] at h
      simp only [List.length_cons] at h
      have hr : read g.data j = .ok g.data[j] := by
        simp [read, List.getElem?_eq_getElem hjlt]
      rw [if_neg hneg, hr]
      show (write data i g.data[j] >>= fun data' =>
          write mesh i pt >>= fun mesh' =>
            solve_gf_loop g rest (j + 1) (i + 1) data' mesh') = _
      by_cases hid : i < data.length
      · have hwd : write data i g.data[j] = .ok (data.set i g.data[j]) := by
          simp [write, hid]
        have hwm : write mesh i pt = .ok (mesh.set i pt) := by
          simp [write, ← hlen, hid]
        rw [hwd]
        show (write mesh i pt >>= fun mesh' =>
            solve_gf_loop g rest (j + 1) (i + 1) (data.set i g.data[j]) mesh') = _
        rw [hwm]
        exact ih (j + 1) (i + 1) _ _ hj' (by rw [List.length_set, List.length_set]; exact hlen)
          (by rw [List.length_set]; omega) (by rw [List.length_set]; omega)
      · have hwd : write data i g.data[j] = .error .out_of_range := by
          simp [write, hid]
        rw [hwd]
        rfl

/-- When the number of points with `Im ≥ 0` equals the allocated length `N`,
`solve(g_iw)` builds exactly those points and their values, in mesh order. -/
theorem solve_gf_arrays_spec (g : gf_imfreq K) (hdata : g.points.length ≤ g.data.length)
    (hN : (g.points.filter (fun p => decide (¬ p.im < 0))).length
      = if g.positive_only then g.points.length else g.points.length / 2) :
    solve_gf_arrays g
      = .ok (((g.points.zip g.data).filter (fun q => decide (¬ q.1.im < 0))).map Prod.snd,
          g.points.filter (fun p => decide (¬ p.im < 0))) := by
  unfold solve_gf_arrays
  rw [← hN, solve_gf_loop_spec g g.points 0 0 _ _ (by omega) (by simp) (by simp)]
  simp

/-- When more points have `Im ≥ 0` than the allocated length `N`, `solve(g_iw)`
writes outside its arrays. -/
theorem solve_gf_arrays_overflow (g : gf_imfreq K) (hdata : g.points.length ≤ g.data.length)
    (hN : (if g.positive_only then g.points.length else g.points.length / 2)
      < (g.points.filter (fun p => decide (¬ p.im < 0))).length) :
    solve_gf_arrays g = .error .out_of_range := by
  unfold solve_gf_arrays
  exact solve_gf_loop_overflow g g.points 0 0 _ _ (by omega) (by simp) (by omega)
    (by simpa using hN)

end host

/-! ## The claims -/

section claims
variable {K : Type} [LinearOrderedField K]

/-- C1: for mesh and data of equal length `M ≥ 1`, array-form `solve` succeeds and
leaves arrays `_phis`, `_abcds`, `_mesh` of length `M` with `z_k = mesh_k`,
`φ_0 = mobius(data_0)` and, for `j ≤ M-2`,
`φ_{j+1} = (-P11·m_{j+1} + P01) / (P10·m_{j+1} - P00)` where `P` is the ordered
product `E_0(z_{j+1}) ⋯ E_j(z_{j+1})` built from the identity. -/
theorem solve_schur_parameters (s : solver K) (mesh data : List (complex_t K))
    (hlen : mesh.length = data.length) (hM : 1 ≤ mesh.length) :
    ∃ s', solve s mesh data = (.ok (), s')
      ∧ s'._phis.length = mesh.length ∧ s'._abcds.length = mesh.length
      ∧ s'._mesh.length = mesh.length
      ∧ (∀ k, k < mesh.length → s'._mesh[k]? = mesh[k]?)
      ∧ s'._phis[0]? = some (mobius (data.getD 0 0))
      ∧ ∀ j, j + 1 < mesh.length → s'._phis[j + 1]?
          = some (next_parameter
              (ordered_product s'._phis s'._mesh (s'._mesh.getD (j + 1) 0) (j + 1))
              (mobius (data.getD (j + 1) 0))) := by
  obtain ⟨s', hs, h1, h2, h3, h4, h5, _⟩ := solve_spec s mesh data hlen hM
  have hget : ∀ k, k < mesh.length →
      (mobius_trasformation data).getD k 0 = mobius (data.getD k 0) := by
    intro k hk
    have hk2 : k < data.length := by omega
    simp [mobius_trasformation_eq, List.getD_eq_getElem?_getD, List.getElem?_eq_getElem hk2]
  refine ⟨s', hs, h1, h2, by rw [h3], fun k _ => by rw [h3], ?_, fun j hj => ?_⟩
  · rw [h4, ← hget 0 (by omega), List.getD_eq_getElem?_getD,
      List.getElem?_eq_getElem (by rw [mobius_trasformation_length]; omega)]
    rfl
  · rw [h5 j (by omega), h3, hget (j + 1) hj]

/-- Instance of `solve_schur_parameters` on a concrete rational input. -/
theorem solve_schur_parameters_witness :
    ∃ s', solve (⟨[], [], []⟩ : solver ℚ) [⟨0, 1⟩, ⟨0, 3⟩] [⟨0, -1⟩, ⟨0, -2⟩] = (.ok (), s')
      ∧ s'._phis.length = 2 ∧ s'._abcds.length = 2 ∧ s'._mesh.length = 2
      ∧ (∀ k, k < 2 → s'._mesh[k]? = ([⟨0, 1⟩, ⟨0, 3⟩] : List (complex_t ℚ))[k]?)
      ∧ s'._phis[0]? = some (mobius (([⟨0, -1⟩, ⟨0, -2⟩] : List (complex_t ℚ)).getD 0 0))
      ∧ ∀ j, j + 1 < 2 → s'._phis[j + 1]?
          = some (next_parameter
              (ordered_product s'._phis s'._mesh (s'._mesh.getD (j + 1) 0) (j + 1))
              (mobius (([⟨0, -1⟩, ⟨0, -2⟩] : List (complex_t ℚ)).getD (j + 1) 0))) :=
  solve_schur_parameters ⟨[], [], []⟩ [⟨0, 1⟩, ⟨0, 3⟩] [⟨0, -1⟩, ⟨0, -2⟩] (by decide) (by decide)

/-- C2: on a solved state with `M ≥ 1` nodes `evaluate` returns one value per
grid point, the `i`-th being `(1/π)·Im(i·(1+θ)/(1−θ))` with `θ = R01/R11` (boundary
parameter `θ_{M+1} = 0`) and `R = E_0(z) ⋯ E_{M-1}(z)` the ordered product from
the identity at `z = grid_i`. -/
theorem evaluate_values (M_PI : K) (s : solver K) (M : Nat) (hs : s.solved M)
    (hM : 1 ≤ M) (grid : List (complex_t K)) :
    ∃ results, evaluate M_PI s grid = .ok results ∧ results.length = grid.length
      ∧ ∀ (i : Nat) (hi : i < grid.length),
          let R := ordered_product s._phis s._mesh grid[i] M
          let theta := R.a01 / R.a11
          results[i]? = some (1 / M_PI * (complex_t.I * (1 + theta) / (1 - theta)).im) := by
  obtain ⟨h1, _, h3⟩ := hs
  refine ⟨_, evaluate_spec M_PI s grid (by omega) (by omega), by simp, fun i hi => ?_⟩
  intro R theta
  rw [List.getElem?_map, List.getElem?_eq_getElem hi, Option.map_some',
    spectral_value, h1]
  rfl

/-- Instance of `evaluate_values` on a concrete rational input. -/
theorem evaluate_values_witness :
    ∃ results, evaluate (3 : ℚ) ⟨[⟨0, 0⟩], [matrix_t.Identity], [⟨0, 1⟩]⟩ [⟨1, 1⟩, ⟨2, 1⟩]
        = .ok results ∧ results.length = ([⟨1, 1⟩, ⟨2, 1⟩] : List (complex_t ℚ)).length
      ∧ ∀ (i : Nat) (hi : i < ([⟨1, 1⟩, ⟨2, 1⟩] : List (complex_t ℚ)).length),
          let R := ordered_product [(⟨0, 0⟩ : complex_t ℚ)] [⟨0, 1⟩]
            ([⟨1, 1⟩, ⟨2, 1⟩] : List (complex_t ℚ))[i] 1
          let theta := R.a01 / R.a11
          results[i]? = some (1 / 3 * (complex_t.I * (1 + theta) / (1 - theta)).im) :=
  evaluate_values 3 ⟨[⟨0, 0⟩], [matrix_t.Identity], [⟨0, 1⟩]⟩ 1 ⟨rfl, rfl, rfl⟩ (by decide)
    [⟨1, 1⟩, ⟨2, 1⟩]

/-- C3 (as stated, refuted): the samples `(i, -i)`, `(3i, -3i)`, `(7i, -7i)` have
pairwise distinct abscissas in the open upper half-plane and their Pick matrix
(all entries `1`) is positive semi-definite, yet `solve` gets `φ_1 = 1` and then
divides `0` by `0` for `φ_2`: the numerator `-P11·m_2 + P01`, the divisor
`P10·m_2 - P00` and the real divisor `c*c + d*d` of `complex_divide` are all
zero, so no number `φ_2` with `|φ_2| ≤ 1` is produced. -/
theorem schur_parameters_counterexample :
    ([⟨0, 1⟩, ⟨0, 3⟩, ⟨0, 7⟩] : List (complex_t ℚ)).Nodup
      ∧ (∀ z ∈ ([⟨0, 1⟩, ⟨0, 3⟩, ⟨0, 7⟩] : List (complex_t ℚ)), 0 < z.im)
      ∧ positive_semidefinite 3
          (pick_matrix ([⟨0, 1⟩, ⟨0, 3⟩, ⟨0, 7⟩] : List (complex_t ℚ))
            [⟨0, -1⟩, ⟨0, -3⟩, ⟨0, -7⟩])
      ∧ ∃ s', solve (⟨[], [], []⟩ : solver ℚ) [⟨0, 1⟩, ⟨0, 3⟩, ⟨0, 7⟩]
            [⟨0, -1⟩, ⟨0, -3⟩, ⟨0, -7⟩] = (.ok (), s')
        ∧ s'._phis[0]? = some 0 ∧ s'._phis[1]? = some 1
        ∧ -(ordered_product s'._phis s'._mesh (s'._mesh.getD 2 0) 2).a11
              * mobius (([⟨0, -1⟩, ⟨0, -3⟩, ⟨0, -7⟩] : List (complex_t ℚ)).getD 2 0)
            + (ordered_product s'._phis s'._mesh (s'._mesh.getD 2 0) 2).a01 = 0
        ∧ (ordered_product s'._phis s'._mesh (s'._mesh.getD 2 0) 2).a10
              * mobius (([⟨0, -1⟩, ⟨0, -3⟩, ⟨0, -7⟩] : List (complex_t ℚ)).getD 2 0)
            - (ordered_product s'._phis s'._mesh (s'._mesh.getD 2 0) 2).a00 = 0
        ∧ ((ordered_product s'._phis s'._mesh (s'._mesh.getD 2 0) 2).a10
              * mobius (([⟨0, -1⟩, ⟨0, -3⟩, ⟨0, -7⟩] : List (complex_t ℚ)).getD 2 0)
            - (ordered_product s'._phis s'._mesh (s'._mesh.getD 2 0) 2).a00).re
            * ((ordered_product s'._phis s'._mesh (s'._mesh.getD 2 0) 2).a10
              * mobius (([⟨0, -1⟩, ⟨0, -3⟩, ⟨0, -7⟩] : List (complex_t ℚ)).getD 2 0)
            - (ordered_product s'._phis s'._mesh (s'._mesh.getD 2 0) 2).a00).re
          + ((ordered_product s'._phis s'._mesh (s'._mesh.getD 2 0) 2).a10
              * mobius (([⟨0, -1⟩, ⟨0, -3⟩, ⟨0, -7⟩] : List (complex_t ℚ)).getD 2 0)
            - (ordered_product s'._phis s'._mesh (s'._mesh.getD 2 0) 2).a00).im
            * ((ordered_product s'._phis s'._mesh (s'._mesh.getD 2 0) 2).a10
              * mobius (([⟨0, -1⟩, ⟨0, -3⟩, ⟨0, -7⟩] : List (complex_t ℚ)).getD 2 0)
            - (ordered_product s'._phis s'._mesh (s'._mesh.getD 2 0) 2).a00).im = 0 := by
  have hP : ∀ i j, i < 3 → j < 3 →
      pick_matrix ([⟨0, 1⟩, ⟨0, 3⟩, ⟨0, 7⟩] : List (complex_t ℚ))
        [⟨0, -1⟩, ⟨0, -3⟩, ⟨0, -7⟩] i j = 1 := by
    intro i j hi hj
    interval_cases i <;> interval_cases j <;>
      · apply complex_t.ext_iff2.2
        constructor <;> norm_num [pick_matrix, complex_t.div_re, complex_t.div_im]
  have hpick : positive_semidefinite 3
      (pick_matrix ([⟨0, 1⟩, ⟨0, 3⟩, ⟨0, 7⟩] : List (complex_t ℚ))
        [⟨0, -1⟩, ⟨0, -3⟩, ⟨0, -7⟩]) := by
    intro c
    simp only [hermitian_form, sum_upto, hP 0 0 (by decide) (by decide),
      hP 0 1 (by decide) (by decide), hP 0 2 (by decide) (by decide),
      hP 1 0 (by decide) (by decide), hP 1 1 (by decide) (by decide),
      hP 1 2 (by decide) (by decide), hP 2 0 (by decide) (by decide),
      hP 2 1 (by decide) (by decide), hP 2 2 (by decide) (by decide)]
    simp only [complex_t.add_re, complex_t.mul_re, complex_t.mul_im, complex_t.conj_re,
      complex_t.conj_im, complex_t.one_re, complex_t.one_im, complex_t.zero_re]
    nlinarith [sq_nonneg ((c 0).re + (c 1).re + (c 2).re),
      sq_nonneg ((c 0).im + (c 1).im + (c 2).im)]
  refine ⟨by decide, ?_, hpick, ?_⟩
  · intro z hz
    simp only [List.mem_cons, List.mem_singleton, List.not_mem_nil, or_false] at hz
    rcases hz with h | h | h <;> rw [h] <;> norm_num
  obtain ⟨s', hs, _, _, h3, h4, h5, _⟩ := solve_spec (⟨[], [], []⟩ : solver ℚ)
    [⟨0, 1⟩, ⟨0, 3⟩, ⟨0, 7⟩] [⟨0, -1⟩, ⟨0, -3⟩, ⟨0, -7⟩] (by decide) (by decide)
  have p0 : s'._phis[0]? = some 0 := by
    rw [h4]
    simp only [mobius_trasformation, List.map_cons, List.getElem?_cons_zero, Option.some.injEq]
    apply complex_t.ext_iff2.2
    constructor <;> norm_num [complex_t.div_re, complex_t.div_im]
  have p1 : s'._phis[1]? = some 1 := by
    rw [h5 0 (by decide), Option.some.injEq]
    apply complex_t.ext_iff2.2
    constructor <;>
      norm_num [next_parameter, ordered_product_succ, ordered_product, p0,
        mobius_trasformation, complex_t.div_re, complex_t.div_im]
  have n2 : -(ordered_product s'._phis s'._mesh (s'._mesh.getD 2 0) 2).a11
        * mobius (([⟨0, -1⟩, ⟨0, -3⟩, ⟨0, -7⟩] : List (complex_t ℚ)).getD 2 0)
      + (ordered_product s'._phis s'._mesh (s'._mesh.getD 2 0) 2).a01 = 0 := by
    rw [h3]
    apply complex_t.ext_iff2.2
    constructor <;>
      norm_num [ordered_product_succ, ordered_product, p0, p1, mobius, complex_t.div_re,
        complex_t.div_im]
  have d2 : (ordered_product s'._phis s'._mesh (s'._mesh.getD 2 0) 2).a10
        * mobius (([⟨0, -1⟩, ⟨0, -3⟩, ⟨0, -7⟩] : List (complex_t ℚ)).getD 2 0)
      - (ordered_product s'._phis s'._mesh (s'._mesh.getD 2 0) 2).a00 = 0 := by
    rw [h3]
    apply complex_t.ext_iff2.2
    constructor <;>
      norm_num [ordered_product_succ, ordered_product, p0, p1, mobius, complex_t.div_re,
        complex_t.div_im]
  refine ⟨s', hs, p0, p1, n2, d2, ?_⟩
  rw [d2]
  norm_num

/-- C3 (amended): for `M ≥ 1` samples with pairwise distinct abscissas in the open
upper half-plane whose Pick matrix `[(w_i - conj w_j)/(z_i - conj z_j)]`,
`w_k = -data_k`, is positive semi-definite and for which no divisor
`P10·m_i - P00` met by `solve` is zero, every Schur parameter `φ_j` left by `solve`
has modulus at most one (`re² + im² ≤ 1`).  Every quotient on the way has a
non-zero divisor: the Möbius divisor `-data_j + i` is non-zero by the Pick
criterion, `φ_0·(-data_0 + i) = -data_0 - i`, and for `j ≥ 1`
`φ_j·(P10·m_j - P00) = -P11·m_j + P01`. -/
theorem schur_parameters_bounded (s : solver K) (mesh data : List (complex_t K))
    (hlen : mesh.length = data.length) (hM : 1 ≤ mesh.length)
    (hupper : ∀ (k : Nat) (hk : k < mesh.length), 0 < mesh[k].im)
    (hdist : ∀ (i j : Nat) (hi : i < mesh.length) (hj : j < mesh.length),
      i ≠ j → mesh[i] ≠ mesh[j])
    (hpick : positive_semidefinite mesh.length (pick_matrix mesh data))
    (hden : ∀ (i : Nat) (hi : i < mesh.length), 1 ≤ i →
      (ordered_product (solve s mesh data).2._phis mesh mesh[i] i).a10
          * mobius (data.getD i 0)
        - (ordered_product (solve s mesh data).2._phis mesh mesh[i] i).a00 ≠ 0) :
    ∀ (j : Nat) (hj : j < mesh.length),
      -(data.getD j 0) + complex_t.I ≠ 0
        ∧ ∃ phi, (solve s mesh data).2._phis[j]? = some phi ∧ complex_t.normSq phi ≤ 1
          ∧ (j = 0 → phi * (-(data.getD 0 0) + complex_t.I)
              = -(data.getD 0 0) - complex_t.I)
          ∧ (1 ≤ j →
              phi * ((ordered_product (solve s mesh data).2._phis mesh mesh[j] j).a10
                    * mobius (data.getD j 0)
                  - (ordered_product (solve s mesh data).2._phis mesh mesh[j] j).a00)
                = -(ordered_product (solve s mesh data).2._phis mesh mesh[j] j).a11
                    * mobius (data.getD j 0)
                  + (ordered_product (solve s mesh data).2._phis mesh mesh[j] j).a01) := by
  obtain ⟨s', hs, hinv⟩ := solve_spec s mesh data hlen hM
  have e2 : (solve s mesh data).2 = s' := by rw [hs]
  rw [e2]
  have hget : ∀ k (hk : k < mesh.length), mesh.getD k 0 = mesh[k] :=
    fun k hk => getD_eq_of_getElem? (List.getElem?_eq_getElem hk)
  have hup : ∀ k, k < mesh.length → 0 < (mesh.getD k 0).im :=
    fun k hk => by rw [hget k hk]; exact hupper k hk
  have hb := solve_invariant_bounded s' mesh data hlen hinv hup
    (fun i j hi hj hij => by rw [hget i hi, hget j hj]; exact hdist i j hi hj hij) hpick
  intro j hj
  have hj' : j < s'._phis.length := by rw [hinv.1]; exact hj
  have hmob : ∀ k, k < mesh.length → -(data.getD k 0) + complex_t.I ≠ 0 :=
    fun k hk => neg_add_I_ne_zero _ (pick_data_im_nonpos mesh data hpick k hk (hup k hk))
  have hphi := solve_invariant_phi s' mesh data hinv j hj
  rw [hget j hj, mobius_trasformation_getD data j (by omega)] at hphi
  refine ⟨hmob j hj, s'._phis.getD j 0, ?_, (hb j hj).1, ?_, ?_⟩
  · rw [List.getElem?_eq_getElem hj']
    exact congrArg some (getD_eq_of_getElem? (List.getElem?_eq_getElem hj')).symm
  · intro h0
    subst h0
    have h4 := hinv.2.2.2.1
    have e0 : s'._phis.getD 0 0 = mobius (data.getD 0 0) := by
      rw [← mobius_trasformation_getD data 0 (by omega), List.getD_eq_getElem?_getD,
        List.getD_eq_getElem?_getD, h4]
    rw [e0]
    exact div_mul_cancel₀ _ (hmob 0 hj)
  · intro h1
    have hd := hden j hj h1
    rw [e2] at hd
    rw [hphi]
    exact div_mul_cancel₀ _ hd

/-- Instance of `schur_parameters_bounded` on a concrete rational input: the
samples `(i, -i)`, `(2i, -2i)` give `φ_0 = 0`, the divisor `-1/3` and `φ_1 = 1`. -/
theorem schur_parameters_bounded_witness :
    positive_semidefinite 2
        (pick_matrix ([⟨0, 1⟩, ⟨0, 2⟩] : List (complex_t ℚ)) [⟨0, -1⟩, ⟨0, -2⟩])
      ∧ (∃ phi, (solve (⟨[], [], []⟩ : solver ℚ) [⟨0, 1⟩, ⟨0, 2⟩]
            [⟨0, -1⟩, ⟨0, -2⟩]).2._phis[0]? = some phi ∧ complex_t.normSq phi ≤ 1)
      ∧ (∃ phi, (solve (⟨[], [], []⟩ : solver ℚ) [⟨0, 1⟩, ⟨0, 2⟩]
            [⟨0, -1⟩, ⟨0, -2⟩]).2._phis[1]? = some phi ∧ complex_t.normSq phi ≤ 1) := by
  have hP : ∀ i j, i < 2 → j < 2 →
      pick_matrix ([⟨0, 1⟩, ⟨0, 2⟩] : List (complex_t ℚ)) [⟨0, -1⟩, ⟨0, -2⟩] i j = 1 := by
    intro i j hi hj
    interval_cases i <;> interval_cases j <;>
      · apply complex_t.ext_iff2.2
        constructor <;> norm_num [pick_matrix, complex_t.div_re, complex_t.div_im]
  have hpick : positive_semidefinite 2
      (pick_matrix ([⟨0, 1⟩, ⟨0, 2⟩] : List (complex_t ℚ)) [⟨0, -1⟩, ⟨0, -2⟩]) := by
    intro c
    simp only [hermitian_form, sum_upto, hP 0 0 (by decide) (by decide),
      hP 0 1 (by decide) (by decide), hP 1 0 (by decide) (by decide),
      hP 1 1 (by decide) (by decide)]
    simp only [complex_t.add_re, complex_t.mul_re, complex_t.mul_im, complex_t.conj_re,
      complex_t.conj_im, complex_t.one_re, complex_t.one_im, complex_t.zero_re]
    nlinarith [sq_nonneg ((c 0).re + (c 1).re), sq_nonneg ((c 0).im + (c 1).im)]
  have hupper : ∀ (k : Nat) (hk : k < ([⟨0, 1⟩, ⟨0, 2⟩] : List (complex_t ℚ)).length),
      0 < ([⟨0, 1⟩, ⟨0, 2⟩] : List (complex_t ℚ))[k].im := by
    intro k hk
    have hk2 : k < 2 := hk
    interval_cases k <;> norm_num
  have hdist : ∀ (i j : Nat) (hi : i < ([⟨0, 1⟩, ⟨0, 2⟩] : List (complex_t ℚ)).length)
      (hj : j < ([⟨0, 1⟩, ⟨0, 2⟩] : List (complex_t ℚ)).length), i ≠ j →
      ([⟨0, 1⟩, ⟨0, 2⟩] : List (complex_t ℚ))[i] ≠ ([⟨0, 1⟩, ⟨0, 2⟩] : List (complex_t ℚ))[j] := by
    intro i j hi hj hij
    have hi2 : i < 2 := hi
    have hj2 : j < 2 := hj
    interval_cases i <;> interval_cases j <;> simp at hij ⊢
  obtain ⟨s', hs, _, _, _, h4, _, _⟩ := solve_spec (⟨[], [], []⟩ : solver ℚ)
    [⟨0, 1⟩, ⟨0, 2⟩] [⟨0, -1⟩, ⟨0, -2⟩] (by decide) (by decide)
  have e2 : (solve (⟨[], [], []⟩ : solver ℚ) [⟨0, 1⟩, ⟨0, 2⟩] [⟨0, -1⟩, ⟨0, -2⟩]).2 = s' := by
    rw [hs]
  have p0 : s'._phis[0]? = some 0 := by
    rw [h4]
    simp only [mobius_trasformation, List.map_cons, List.getElem?_cons_zero, Option.some.injEq]
    apply complex_t.ext_iff2.2
    constructor <;> norm_num [complex_t.div_re, complex_t.div_im]
  have d1 : (ordered_product s'._phis [⟨0, 1⟩, ⟨0, 2⟩] ⟨0, 2⟩ 1).a10
        * mobius (⟨0, -2⟩ : complex_t ℚ)
      - (ordered_product s'._phis [⟨0, 1⟩, ⟨0, 2⟩] ⟨0, 2⟩ 1).a00 = ⟨-1 / 3, 0⟩ := by
    apply complex_t.ext_iff2.2
    constructor <;>
      norm_num [ordered_product_succ, ordered_product, p0, mobius, complex_t.div_re,
        complex_t.div_im]
  have hden : ∀ (i : Nat) (hi : i < ([⟨0, 1⟩, ⟨0, 2⟩] : List (complex_t ℚ)).length), 1 ≤ i →
      (ordered_product (solve (⟨[], [], []⟩ : solver ℚ) [⟨0, 1⟩, ⟨0, 2⟩]
            [⟨0, -1⟩, ⟨0, -2⟩]).2._phis [⟨0, 1⟩, ⟨0, 2⟩]
          ([⟨0, 1⟩, ⟨0, 2⟩] : List (complex_t ℚ))[i] i).a10
          * mobius (([⟨0, -1⟩, ⟨0, -2⟩] : List (complex_t ℚ)).getD i 0)
        - (ordered_product (solve (⟨[], [], []⟩ : solver ℚ) [⟨0, 1⟩, ⟨0, 2⟩]
            [⟨0, -1⟩, ⟨0, -2⟩]).2._phis [⟨0, 1⟩, ⟨0, 2⟩]
          ([⟨0, 1⟩, ⟨0, 2⟩] : List (complex_t ℚ))[i] i).a00 ≠ 0 := by
    intro i hi h1
    have hi2 : i < 2 := hi
    have hi1 : i = 1 := by omega
    subst hi1
    rw [e2]
    show (ordered_product s'._phis [⟨0, 1⟩, ⟨0, 2⟩] ⟨0, 2⟩ 1).a10
          * mobius (⟨0, -2⟩ : complex_t ℚ)
        - (ordered_product s'._phis [⟨0, 1⟩, ⟨0, 2⟩] ⟨0, 2⟩ 1).a00 ≠ 0
    rw [d1]
    intro h
    have := congrArg complex_t.re h
    norm_num at this
  exact ⟨hpick,
    (schur_parameters_bounded ⟨[], [], []⟩ [⟨0, 1⟩, ⟨0, 2⟩] [⟨0, -1⟩, ⟨0, -2⟩] (by decide)
      (by decide) hupper hdist hpick hden 0 (by decide)).2.imp fun _ h => ⟨h.1, h.2.1⟩,
    (schur_parameters_bounded ⟨[], [], []⟩ [⟨0, 1⟩, ⟨0, 2⟩] [⟨0, -1⟩, ⟨0, -2⟩] (by decide)
      (by decide) hupper hdist hpick hden 1 (by decide)).2.imp fun _ h => ⟨h.1, h.2.1⟩⟩

/-- C4: with zero solved nodes (`_phis` empty) both `evaluate` overloads throw
the empty-state `nevanlinna_error` and return no result, for every grid. -/
theorem evaluate_empty_state (M_PI : K) (s : solver K) (h : s._phis.length = 0)
    (grid : List (complex_t K)) (rgrid : List K) (eta : K) :
    evaluate M_PI s grid
        = .error (.nevanlinna_error "Empty continuation data. Please run solve(...) first.")
      ∧ evaluate_eta M_PI s rgrid eta
        = .error (.nevanlinna_error "Empty continuation data. Please run solve(...) first.") := by
  simp [evaluate, evaluate_eta, h]

/-- Instance of `evaluate_empty_state` on a concrete rational input. -/
theorem evaluate_empty_state_witness :
    evaluate (3 : ℚ) ⟨[], [], []⟩ [⟨0, 1⟩]
        = .error (.nevanlinna_error "Empty continuation data. Please run solve(...) first.")
      ∧ evaluate_eta (3 : ℚ) ⟨[], [], []⟩ [] 0
        = .error (.nevanlinna_error "Empty continuation data. Please run solve(...) first.") :=
  evaluate_empty_state 3 ⟨[], [], []⟩ rfl [⟨0, 1⟩] [] 0

/-- C5 (code evaluated at a failing input): the mesh `[2i]` and the data
`[-3i, -i]` have different lengths and the prior state holds two nodes.  With the
`assert` of line 22 compiled out (`NDEBUG`) the call returns normally and the
members are resized to one node and overwritten (`φ_0 = 1/2`, `A_0 = Identity`,
`z_0 = 2i`); with the `assert` enabled the outcome is the abort of the process.
Neither build reports a shape-mismatch error to the caller and keeps the state. -/
theorem solve_shape_mismatch_overwrites :
    ([⟨0, 2⟩] : List (complex_t ℚ)).length
        ≠ ([⟨0, -3⟩, ⟨0, -1⟩] : List (complex_t ℚ)).length
      ∧ solve_ndebug (⟨[⟨0, 0⟩, ⟨1, 0⟩], [matrix_t.Identity, matrix_t.Identity],
            [⟨0, 1⟩, ⟨0, 2⟩]⟩ : solver ℚ) [⟨0, 2⟩] [⟨0, -3⟩, ⟨0, -1⟩]
          = (.ok (), ⟨[⟨1 / 2, 0⟩], [matrix_t.Identity], [⟨0, 2⟩]⟩)
      ∧ (⟨[⟨1 / 2, 0⟩], [matrix_t.Identity], [⟨0, 2⟩]⟩ : solver ℚ)
          ≠ ⟨[⟨0, 0⟩, ⟨1, 0⟩], [matrix_t.Identity, matrix_t.Identity], [⟨0, 1⟩, ⟨0, 2⟩]⟩
      ∧ (solve (⟨[⟨0, 0⟩, ⟨1, 0⟩], [matrix_t.Identity, matrix_t.Identity],
            [⟨0, 1⟩, ⟨0, 2⟩]⟩ : solver ℚ) [⟨0, 2⟩] [⟨0, -3⟩, ⟨0, -1⟩]).1
          = .error .assertion_failed := by
  have hm : mobius (⟨0, -3⟩ : complex_t ℚ) = ⟨1 / 2, 0⟩ := by
    apply complex_t.ext_iff2.2
    constructor <;> norm_num [mobius, complex_t.div_re, complex_t.div_im]
  refine ⟨by decide, ?_, ?_, ?_⟩
  · simp [solve_ndebug, solve_init, solve_outer, resize, mobius_trasformation_eq, read, write,
      bind, Except.bind, hm]
  · intro h
    have h1 := congrArg (fun t : solver ℚ => t._phis.length) h
    simp at h1
  · simp [solve]

/-- C6 (as stated, refuted): at `d = 1` both divisors are non-zero, yet the
inverse map applied to `mobius d` gives `-1`, not `d`. -/
theorem mobius_roundtrip_counterexample :
    (-(⟨1, 0⟩ : complex_t ℚ) + complex_t.I ≠ 0)
      ∧ (1 - mobius (⟨1, 0⟩ : complex_t ℚ) ≠ 0)
      ∧ (mobius_trasformation [(⟨1, 0⟩ : complex_t ℚ)]).map inverse_mobius ≠ [⟨1, 0⟩] := by
  have hm : mobius (⟨1, 0⟩ : complex_t ℚ) = ⟨0, 1⟩ := by
    apply complex_t.ext_iff2.2
    constructor <;> norm_num [mobius, complex_t.div_re, complex_t.div_im]
  have hne : -(⟨1, 0⟩ : complex_t ℚ) + complex_t.I ≠ 0 :=
    complex_t.ne_zero_of_im_ne (by norm_num)
  refine ⟨hne, ?_, ?_⟩
  · rw [hm]
    exact complex_t.ne_zero_of_im_ne (by norm_num)
  · rw [mobius_trasformation_eq, List.map_cons, List.map_cons,
      inverse_mobius_mobius _ hne]
    intro h
    have h1 := congrArg (fun l => (l.headD 0).re) h
    norm_num at h1

/-- C6 (amended): for every `d` with `-d + i ≠ 0`, the inverse map of `evaluate`
applied to the Möbius pre-transform of `d` returns `-d`. -/
theorem mobius_roundtrip_neg (d : complex_t K) (h : -d + complex_t.I ≠ 0) :
    (mobius_trasformation [d]).map inverse_mobius = [-d] := by
  rw [mobius_trasformation_eq, List.map_cons, List.map_cons, inverse_mobius_mobius d h]
  rfl

/-- Instance of `mobius_roundtrip_neg` on a concrete rational input. -/
theorem mobius_roundtrip_neg_witness :
    (-(⟨1, 0⟩ : complex_t ℚ) + complex_t.I ≠ 0)
      ∧ (mobius_trasformation [(⟨1, 0⟩ : complex_t ℚ)]).map inverse_mobius = [-⟨1, 0⟩] :=
  ⟨complex_t.ne_zero_of_im_ne (by norm_num),
    mobius_roundtrip_neg _ (complex_t.ne_zero_of_im_ne (by norm_num))⟩

/-- C7 (as stated, refuted): `d = 2i` has `Im d ≥ 0` and a non-zero divisor, but
its transform is `3`, of modulus greater than one. -/
theorem mobius_disk_counterexample :
    (0 : ℚ) ≤ (⟨0, 2⟩ : complex_t ℚ).im
      ∧ (-(⟨0, 2⟩ : complex_t ℚ) + complex_t.I ≠ 0)
      ∧ mobius_trasformation [(⟨0, 2⟩ : complex_t ℚ)] = [⟨3, 0⟩]
      ∧ ¬ complex_t.normSq (⟨3, 0⟩ : complex_t ℚ) ≤ 1 := by
  refine ⟨by norm_num, complex_t.ne_zero_of_im_ne (by norm_num), ?_, by norm_num [complex_t.normSq]⟩
  simp only [mobius_trasformation, List.map_cons, List.map_nil, List.cons.injEq, and_true]
  apply complex_t.ext_iff2.2
  constructor <;> norm_num [complex_t.div_re, complex_t.div_im]

/-- C7 (amended): the pre-transform keeps the length, its `k`-th element is
`(-d_k - i)/(-d_k + i)`, and for every ordinate with `Im d_k ≤ 0` that element has
modulus at most one (`re² + im² ≤ 1`). -/
theorem mobius_trasformation_disk (data : List (complex_t K)) :
    (mobius_trasformation data).length = data.length
      ∧ ∀ (k : Nat) (hk : k < data.length),
          (mobius_trasformation data)[k]?
              = some ((-data[k] - complex_t.I) / (-data[k] + complex_t.I))
            ∧ (data[k].im ≤ 0 →
                complex_t.normSq ((-data[k] - complex_t.I) / (-data[k] + complex_t.I)) ≤ 1) := by
  refine ⟨mobius_trasformation_length data, fun k hk => ⟨?_, fun him => ?_⟩⟩
  · simp [mobius_trasformation, hk]
  · exact mobius_normSq_le_one _ him

/-- Instance of `mobius_trasformation_disk` on a concrete rational input. -/
theorem mobius_trasformation_disk_witness :
    (mobius_trasformation [(⟨1, -1⟩ : complex_t ℚ)])[0]?
        = some ((-(⟨1, -1⟩ : complex_t ℚ) - complex_t.I) / (-(⟨1, -1⟩ : complex_t ℚ) + complex_t.I))
      ∧ complex_t.normSq
          ((-(⟨1, -1⟩ : complex_t ℚ) - complex_t.I) / (-(⟨1, -1⟩ : complex_t ℚ) + complex_t.I)) ≤ 1 :=
  ⟨((mobius_trasformation_disk [(⟨1, -1⟩ : complex_t ℚ)]).2 0 (by decide)).1,
    ((mobius_trasformation_disk [(⟨1, -1⟩ : complex_t ℚ)]).2 0 (by decide)).2 (by norm_num)⟩

/-- C8: `solve` discards the prior state: from any two prior states the outcome
and the state left by `solve(mesh, data)` (equal lengths, `M ≥ 1`) coincide; in
particular solving again on the same inputs reproduces the same state. -/
theorem solve_replaces_state (s1 s2 : solver K) (mesh data : List (complex_t K))
    (hlen : mesh.length = data.length) (hM : 1 ≤ mesh.length) :
    solve s1 mesh data = solve s2 mesh data
      ∧ solve (solve s1 mesh data).2 mesh data = solve s1 mesh data :=
  ⟨solve_independent_of_state s1 s2 mesh data hlen hM,
    solve_independent_of_state _ s1 mesh data hlen hM⟩

/-- Instance of `solve_replaces_state` on a concrete rational input. -/
theorem solve_replaces_state_witness :
    solve (⟨[], [], []⟩ : solver ℚ) [⟨0, 1⟩, ⟨0, 3⟩] [⟨0, -1⟩, ⟨0, -2⟩]
        = solve ⟨[⟨7, 7⟩, ⟨7, 7⟩, ⟨7, 7⟩], [matrix_t.Identity], [⟨5, 5⟩]⟩
            [⟨0, 1⟩, ⟨0, 3⟩] [⟨0, -1⟩, ⟨0, -2⟩]
      ∧ solve (solve (⟨[], [], []⟩ : solver ℚ) [⟨0, 1⟩, ⟨0, 3⟩] [⟨0, -1⟩, ⟨0, -2⟩]).2
            [⟨0, 1⟩, ⟨0, 3⟩] [⟨0, -1⟩, ⟨0, -2⟩]
        = solve (⟨[], [], []⟩ : solver ℚ) [⟨0, 1⟩, ⟨0, 3⟩] [⟨0, -1⟩, ⟨0, -2⟩] :=
  solve_replaces_state _ _ _ _ (by decide) (by decide)

/-- C9: on a solved state with `M ≥ 1`, entry `i` of `evaluate(grid)` is the single
entry of `evaluate([grid_i])`, and equals the entry obtained at any position of any
other grid holding the same point: the scratch matrix carried through the loop
transports nothing between queries. -/
theorem evaluate_pointwise (M_PI : K) (s : solver K) (M : Nat) (hs : s.solved M)
    (hM : 1 ≤ M) (grid : List (complex_t K)) (i : Nat) (hi : i < grid.length) :
    ∃ v, (∃ results, evaluate M_PI s grid = .ok results ∧ results[i]? = some v)
      ∧ evaluate M_PI s [grid[i]] = .ok [v]
      ∧ ∀ (grid' : List (complex_t K)) (i' : Nat) (hi' : i' < grid'.length),
          grid'[i'] = grid[i] →
          ∃ results', evaluate M_PI s grid' = .ok results' ∧ results'[i']? = some v := by
  obtain ⟨h1, _, h3⟩ := hs
  have hev := fun g => evaluate_spec M_PI s g (show 1 ≤ s._phis.length by omega)
    (show s._phis.length ≤ s._mesh.length by omega)
  refine ⟨spectral_value M_PI s._phis s._mesh grid[i], ⟨_, hev grid, ?_⟩, ?_, ?_⟩
  · rw [List.getElem?_map, List.getElem?_eq_getElem hi, Option.map_some']
  · rw [hev]
    rfl
  · intro grid' i' hi' heq
    refine ⟨_, hev grid', ?_⟩
    rw [List.getElem?_map, List.getElem?_eq_getElem hi', Option.map_some', heq]

/-- Instance of `evaluate_pointwise` on a concrete rational input. -/
theorem evaluate_pointwise_witness :
    ∃ v, (∃ results, evaluate (3 : ℚ) ⟨[⟨0, 0⟩], [matrix_t.Identity], [⟨0, 1⟩]⟩
            [⟨1, 1⟩, ⟨2, 1⟩] = .ok results ∧ results[1]? = some v)
      ∧ evaluate (3 : ℚ) ⟨[⟨0, 0⟩], [matrix_t.Identity], [⟨0, 1⟩]⟩
          [([⟨1, 1⟩, ⟨2, 1⟩] : List (complex_t ℚ))[1]] = .ok [v]
      ∧ ∀ (grid' : List (complex_t ℚ)) (i' : Nat) (hi' : i' < grid'.length),
          grid'[i'] = ([⟨1, 1⟩, ⟨2, 1⟩] : List (complex_t ℚ))[1] →
          ∃ results', evaluate (3 : ℚ) ⟨[⟨0, 0⟩], [matrix_t.Identity], [⟨0, 1⟩]⟩ grid'
            = .ok results' ∧ results'[i']? = some v :=
  evaluate_pointwise 3 ⟨[⟨0, 0⟩], [matrix_t.Identity], [⟨0, 1⟩]⟩ 1 ⟨rfl, rfl, rfl⟩ (by decide)
    [⟨1, 1⟩, ⟨2, 1⟩] 1 (by decide)

/-- C10: `evaluate(grid, eta)` is the complex-grid `evaluate` on the grid of the
same length whose `k`-th point has real part `grid_k` and imaginary part `eta`;
with `eta = 0` the points are exactly the real ones. -/
theorem evaluate_eta_eq_evaluate (M_PI : K) (s : solver K) (grid : List K) (eta : K) :
    evaluate_eta M_PI s grid eta = evaluate M_PI s (grid.map fun x => ⟨x, eta⟩)
      ∧ (grid.map fun x => (⟨x, eta⟩ : complex_t K)).length = grid.length
      ∧ evaluate_eta M_PI s grid 0 = evaluate M_PI s (grid.map fun x => ⟨x, 0⟩) := by
  have key : ∀ e : K, (fun x : K => complex_t.ofReal x + complex_t.ofReal e * complex_t.I)
      = fun x => (⟨x, e⟩ : complex_t K) := by
    intro e
    funext x
    apply complex_t.ext_iff2.2
    constructor <;> simp
  refine ⟨?_, by simp, ?_⟩
  · unfold evaluate_eta
    rw [key]
  · unfold evaluate_eta
    rw [key]

/-- C11 (as stated, refuted): the one-element sequence `[i]` is non-empty, yet for
its element the divisor `-d + i` and the real divisor `c*c + d*d` of
`complex_divide` are both zero. -/
theorem mobius_divisor_counterexample :
    ([(⟨0, 1⟩ : complex_t ℚ)] ≠ [])
      ∧ (⟨0, 1⟩ : complex_t ℚ) ∈ [(⟨0, 1⟩ : complex_t ℚ)]
      ∧ -(⟨0, 1⟩ : complex_t ℚ) + complex_t.I = 0
      ∧ (-(⟨0, 1⟩ : complex_t ℚ) + complex_t.I).re * (-(⟨0, 1⟩ : complex_t ℚ) + complex_t.I).re
          + (-(⟨0, 1⟩ : complex_t ℚ) + complex_t.I).im
            * (-(⟨0, 1⟩ : complex_t ℚ) + complex_t.I).im = 0 := by
  refine ⟨by simp, by simp, ?_, by norm_num⟩
  apply complex_t.ext_iff2.2
  constructor <;> norm_num

/-- C11 (amended): for every non-empty data sequence and every element `d = data_k`
of it other than `d = i`, the divisor `-d + i` of `mobius(d)` is non-zero, and so is
the real divisor `c*c + d*d` by which `complex_divide` divides, so the `k`-th
output is the quotient `(-d - i)/(-d + i)`; the divisor vanishes exactly at `d = i`,
and never for an ordinate with `Im d ≤ 0`. -/
theorem mobius_divisor_ne_zero (data : List (complex_t K)) (k : Nat)
    (hk : k < data.length) :
    (data[k] ≠ complex_t.I →
      -data[k] + complex_t.I ≠ 0
        ∧ (-data[k] + complex_t.I).re * (-data[k] + complex_t.I).re
            + (-data[k] + complex_t.I).im * (-data[k] + complex_t.I).im ≠ 0)
      ∧ (mobius_trasformation data)[k]?
          = some ((-data[k] - complex_t.I) / (-data[k] + complex_t.I))
      ∧ (-data[k] + complex_t.I = 0 ↔ data[k] = complex_t.I)
      ∧ (data[k].im ≤ 0 → -data[k] + complex_t.I ≠ 0) := by
  have hiff : -data[k] + complex_t.I = 0 ↔ data[k] = complex_t.I := by
    constructor
    · intro h
      linear_combination -h
    · intro h
      rw [h]
      ring
  refine ⟨fun h => ?_, by simp [mobius_trasformation, hk], hiff, fun him => ?_⟩
  · have h1 : -data[k] + complex_t.I ≠ 0 := fun h0 => h (hiff.mp h0)
    exact ⟨h1, complex_t.sq_sum_ne_zero h1⟩
  · apply complex_t.ne_zero_of_im_ne
    simp only [complex_t.add_im, complex_t.neg_im, complex_t.I_im]
    linarith

/-- Instance of `mobius_divisor_ne_zero` on a concrete rational input. -/
theorem mobius_divisor_ne_zero_witness :
    -(⟨1, -1⟩ : complex_t ℚ) + complex_t.I ≠ 0
      ∧ (-(⟨1, -1⟩ : complex_t ℚ) + complex_t.I).re * (-(⟨1, -1⟩ : complex_t ℚ) + complex_t.I).re
          + (-(⟨1, -1⟩ : complex_t ℚ) + complex_t.I).im
            * (-(⟨1, -1⟩ : complex_t ℚ) + complex_t.I).im ≠ 0 :=
  (mobius_divisor_ne_zero [⟨1, -1⟩, ⟨2, -3⟩] 0 (by decide)).1
    (fun h => by
      have := congrArg complex_t.re h
      norm_num at this)

/-- C12: `complex_multiply(x, y)` is the complex product `(ac - bd) + (ad + bc)i`,
`operator*` and `operator/` are `complex_multiply` and `complex_divide`, and for
`y ≠ 0` division undoes multiplication on either side. -/
theorem complex_multiply_divide_inverse (x y : complex_t K) (hy : y ≠ 0) :
    complex_t.complex_multiply x y
        = ⟨x.re * y.re - x.im * y.im, x.re * y.im + x.im * y.re⟩
      ∧ x * y = complex_t.complex_multiply x y
      ∧ x / y = complex_t.complex_divide x y
      ∧ complex_t.complex_multiply (complex_t.complex_divide x y) y = x
      ∧ complex_t.complex_divide (complex_t.complex_multiply x y) y = x :=
  ⟨rfl, rfl, rfl, div_mul_cancel₀ x hy, mul_div_cancel_right₀ x hy⟩

/-- Instance of `complex_multiply_divide_inverse` on a concrete rational input. -/
theorem complex_multiply_divide_inverse_witness :
    complex_t.complex_multiply (complex_t.complex_divide (⟨1, 2⟩ : complex_t ℚ) ⟨3, 4⟩) ⟨3, 4⟩
        = ⟨1, 2⟩
      ∧ complex_t.complex_divide (complex_t.complex_multiply (⟨1, 2⟩ : complex_t ℚ) ⟨3, 4⟩)
          ⟨3, 4⟩ = ⟨1, 2⟩ :=
  (complex_multiply_divide_inverse ⟨1, 2⟩ ⟨3, 4⟩
    (complex_t.ne_zero_of_im_ne (by norm_num))).2.2.2

/-- C13: every complex-scalar helper, every scalar compound assignment and the
scalar comparison agree with the complex-complex operation applied to `x` and the
promoted scalar `(s, 0)`.  The identities hold for every `s` and `x`; where a
divisor is zero both sides are the same quotient by zero. -/
theorem scalar_promotion (x : complex_t K) (s : K) :
    complex_t.complex_add_scalar x s = complex_t.complex_add x (complex_t.ofReal s)
      ∧ complex_t.complex_sub_scalar x s = complex_t.complex_sub x (complex_t.ofReal s)
      ∧ complex_t.complex_multiply_scalar x s
          = complex_t.complex_multiply x (complex_t.ofReal s)
      ∧ complex_t.complex_divide_scalar x s
          = complex_t.complex_divide x (complex_t.ofReal s)
      ∧ complex_t.scalar_divide_complex s x
          = complex_t.complex_divide (complex_t.ofReal s) x
      ∧ complex_t.operator_add_assign_scalar x s
          = complex_t.operator_add_assign x (complex_t.ofReal s)
      ∧ complex_t.operator_sub_assign_scalar x s
          = complex_t.operator_sub_assign x (complex_t.ofReal s)
      ∧ complex_t.operator_mul_assign_scalar x s
          = complex_t.operator_mul_assign x (complex_t.ofReal s)
      ∧ complex_t.operator_div_assign_scalar x s
          = complex_t.operator_div_assign x (complex_t.ofReal s)
      ∧ complex_t.operator_eq_scalar x s = complex_t.operator_eq x (complex_t.ofReal s) := by
  have hdiv : ∀ a : K, a / s = (a * s) / (s * s) := by
    intro a
    by_cases hs : s = 0
    · simp [hs]
    · field_simp
      ring
  refine ⟨?_, ?_, ?_, ?_, ?_, ?_, ?_, ?_, ?_, ?_⟩
  · apply complex_t.ext_iff2.2
    constructor <;> simp [complex_t.complex_add_scalar, complex_t.complex_add]
  · apply complex_t.ext_iff2.2
    constructor <;> simp [complex_t.complex_sub_scalar, complex_t.complex_sub]
  · apply complex_t.ext_iff2.2
    constructor <;> simp [complex_t.complex_multiply_scalar, complex_t.complex_multiply]
  · apply complex_t.ext_iff2.2
    constructor <;>
      simp only [complex_t.complex_divide_scalar, complex_t.complex_divide,
        complex_t.ofReal_re, complex_t.ofReal_im, mul_zero, add_zero, sub_zero]
    · exact hdiv x.re
    · exact hdiv x.im
  · apply complex_t.ext_iff2.2
    constructor <;>
      simp [complex_t.scalar_divide_complex, complex_t.complex_divide]
  · apply complex_t.ext_iff2.2
    constructor <;> simp [complex_t.operator_add_assign_scalar, complex_t.operator_add_assign]
  · apply complex_t.ext_iff2.2
    constructor <;> simp [complex_t.operator_sub_assign_scalar, complex_t.operator_sub_assign]
  · apply complex_t.ext_iff2.2
    constructor <;> simp [complex_t.operator_mul_assign_scalar, complex_t.operator_mul_assign]
  · apply complex_t.ext_iff2.2
    constructor <;>
      simp only [complex_t.operator_div_assign_scalar, complex_t.operator_div_assign,
        complex_t.div_re, complex_t.div_im, complex_t.ofReal_re, complex_t.ofReal_im,
        mul_zero, add_zero, sub_zero]
    · exact hdiv x.re
    · exact hdiv x.im
  · simp [complex_t.operator_eq_scalar, complex_t.operator_eq]

/-- C16: for mesh and data of equal length `M ≥ 1` no checked access of `solve`
leaves the bounds `0..M-1` and both loops run to completion (the call returns
normally); for `M = 0` the first access `_phis[0] = mdata[0]` is out of bounds. -/
theorem solve_accesses_in_bounds (s : solver K) (mesh data : List (complex_t K))
    (hlen : mesh.length = data.length) (hM : 1 ≤ mesh.length) :
    (solve s mesh data).1 = .ok ()
      ∧ (solve s mesh data).2.solved mesh.length
      ∧ read (mobius_trasformation ([] : List (complex_t K))) 0 = .error .out_of_range
      ∧ solve s [] [] = (.error .out_of_range, ⟨[], [], []⟩) := by
  obtain ⟨s', hs, h1, h2, h3, _⟩ := solve_spec s mesh data hlen hM
  refine ⟨by rw [hs], ?_, rfl, ?_⟩
  · rw [hs]
    exact ⟨h1, h2, by rw [h3]⟩
  · simp [solve, solve_ndebug, resize, mobius_trasformation, read, bind, Except.bind]

/-- Instance of `solve_accesses_in_bounds` on a concrete rational input. -/
theorem solve_accesses_in_bounds_witness :
    (solve (⟨[], [], []⟩ : solver ℚ) [⟨0, 1⟩, ⟨0, 3⟩] [⟨0, -1⟩, ⟨0, -2⟩]).1 = .ok ()
      ∧ solve (⟨[], [], []⟩ : solver ℚ) [] [] = (.error .out_of_range, ⟨[], [], []⟩) :=
  ⟨(solve_accesses_in_bounds ⟨[], [], []⟩ [⟨0, 1⟩, ⟨0, 3⟩] [⟨0, -1⟩, ⟨0, -2⟩] (by decide)
      (by decide)).1,
    (solve_accesses_in_bounds ⟨[], [], []⟩ [⟨0, 1⟩, ⟨0, 3⟩] [⟨0, -1⟩, ⟨0, -2⟩] (by decide)
      (by decide)).2.2.2⟩

/-- C19: on a solved state with `M ≥ 1` whose abscissas lie in the open upper
half-plane and whose Schur parameters have modulus below one, for every query
point `z` with `Im z > 0` the `θ = R01/R11` computed by `evaluate` satisfies
`|θ| ≤ 1` (indeed `|θ|² < 1`, with `R11 ≠ 0`) and `θ ≠ 1`, and the returned value
`(1/π)·Im(i·(1+θ)/(1−θ))` is non-negative (`M_PI > 0`). -/
theorem evaluate_nonnegative (M_PI : K) (hpi : 0 < M_PI) (s : solver K) (M : Nat)
    (hs : s.solved M) (hM : 1 ≤ M)
    (hzs : ∀ (j : Nat) (hj : j < s._mesh.length), 0 < s._mesh[j].im)
    (hphis : ∀ (j : Nat) (hj : j < s._phis.length), complex_t.normSq s._phis[j] < 1)
    (z : complex_t K) (hz : 0 < z.im) :
    let R := ordered_product s._phis s._mesh z M
    let theta := R.a01 / R.a11
    R.a11 ≠ 0 ∧ complex_t.normSq theta ≤ 1 ∧ complex_t.normSq theta < 1 ∧ theta ≠ 1
      ∧ evaluate M_PI s [z]
          = .ok [1 / M_PI * (complex_t.I * (1 + theta) / (1 - theta)).im]
      ∧ 0 ≤ 1 / M_PI * (complex_t.I * (1 + theta) / (1 - theta)).im := by
  intro R theta
  obtain ⟨h1, _, h3⟩ := hs
  have hzs' : ∀ j, j < M → 0 < (s._mesh.getD j 0).im := by
    intro j hj
    have hj' : j < s._mesh.length := by omega
    rw [getD_eq_of_getElem? (List.getElem?_eq_getElem hj')]
    exact hzs j hj'
  have hphis' : ∀ j, j < M → complex_t.normSq (s._phis.getD j 0) < 1 := by
    intro j hj
    have hj' : j < s._phis.length := by omega
    rw [getD_eq_of_getElem? (List.getElem?_eq_getElem hj')]
    exact hphis j hj'
  obtain ⟨hq, hlt⟩ := evaluate_theta_contractive s._phis s._mesh z M hz hzs' hphis'
  have hne : theta ≠ 1 := by
    intro h
    have h' : complex_t.normSq theta < 1 := hlt
    rw [h] at h'
    simp [complex_t.normSq] at h'
  have hval : (complex_t.I * (1 + theta) / (1 - theta)).im
      = (1 - complex_t.normSq theta) / complex_t.normSq (1 - theta) :=
    inverse_mobius_im theta
  refine ⟨hq, le_of_lt hlt, hlt, hne, ?_, ?_⟩
  · rw [evaluate_spec M_PI s [z] (by omega) (by omega)]
    show Except.ok [spectral_value M_PI s._phis s._mesh z] = _
    rw [spectral_value, h1]
    rfl
  · rw [hval]
    exact mul_nonneg (le_of_lt (one_div_pos.mpr hpi))
      (div_nonneg (by linarith [show complex_t.normSq theta < 1 from hlt])
        (complex_t.normSq_nonneg _))

/-- Instance of `evaluate_nonnegative` on a concrete rational input. -/
theorem evaluate_nonnegative_witness :
    evaluate (3 : ℚ) ⟨[⟨1 / 3, 0⟩], [matrix_t.Identity], [⟨0, 1⟩]⟩ [⟨1, 1⟩]
        = .ok [1 / 3 * (complex_t.I
            * (1 + (ordered_product [(⟨1 / 3, 0⟩ : complex_t ℚ)] [⟨0, 1⟩] ⟨1, 1⟩ 1).a01
                / (ordered_product [(⟨1 / 3, 0⟩ : complex_t ℚ)] [⟨0, 1⟩] ⟨1, 1⟩ 1).a11)
            / (1 - (ordered_product [(⟨1 / 3, 0⟩ : complex_t ℚ)] [⟨0, 1⟩] ⟨1, 1⟩ 1).a01
                / (ordered_product [(⟨1 / 3, 0⟩ : complex_t ℚ)] [⟨0, 1⟩] ⟨1, 1⟩ 1).a11)).im]
      ∧ 0 ≤ 1 / 3 * (complex_t.I
            * (1 + (ordered_product [(⟨1 / 3, 0⟩ : complex_t ℚ)] [⟨0, 1⟩] ⟨1, 1⟩ 1).a01
                / (ordered_product [(⟨1 / 3, 0⟩ : complex_t ℚ)] [⟨0, 1⟩] ⟨1, 1⟩ 1).a11)
            / (1 - (ordered_product [(⟨1 / 3, 0⟩ : complex_t ℚ)] [⟨0, 1⟩] ⟨1, 1⟩ 1).a01
                / (ordered_product [(⟨1 / 3, 0⟩ : complex_t ℚ)] [⟨0, 1⟩] ⟨1, 1⟩ 1).a11)).im :=
  (evaluate_nonnegative (3 : ℚ) (by norm_num) ⟨[⟨1 / 3, 0⟩], [matrix_t.Identity], [⟨0, 1⟩]⟩ 1
    ⟨rfl, rfl, rfl⟩ (by decide)
    (fun j hj => by
      have hj1 : j < 1 := hj
      interval_cases j
      norm_num)
    (fun j hj => by
      have hj1 : j < 1 := hj
      interval_cases j
      norm_num [complex_t.normSq])
    ⟨1, 1⟩ (by norm_num)).2.2.2.2

/-- C18: for `M ≥ 1` samples with pairwise distinct abscissas in the open upper
half-plane, such that no divisor met by `solve` is zero (the Möbius divisors
`-data_j + i` and the divisors `P10·m_{j+1} - P00` of the Schur parameters) and
every computed `|φ_j|² < 1`, `solve` succeeds and for every `k < M` the
`θ = R01/R11` that `evaluate` computes at the query point `z_k` equals
`mobius(data_k) = (-data_k - i)/(-data_k + i)`, and `evaluate` returns
`(1/π)·Im(-data_k)` there. -/
theorem evaluate_interpolates (M_PI : K) (s : solver K) (mesh data : List (complex_t K))
    (hlen : mesh.length = data.length) (hM : 1 ≤ mesh.length)
    (hupper : ∀ j, j < mesh.length → 0 < (mesh.getD j 0).im)
    (hdist : ∀ i j, i < mesh.length → j < mesh.length → i ≠ j →
      mesh.getD i 0 ≠ mesh.getD j 0)
    (hmob : ∀ j, j < mesh.length → -(data.getD j 0) + complex_t.I ≠ 0)
    (hden : ∀ j, j + 1 < mesh.length →
      (ordered_product (solve s mesh data).2._phis mesh (mesh.getD (j + 1) 0) (j + 1)).a10
          * mobius (data.getD (j + 1) 0)
        - (ordered_product (solve s mesh data).2._phis mesh (mesh.getD (j + 1) 0) (j + 1)).a00
        ≠ 0)
    (hphi : ∀ j, j < mesh.length →
      complex_t.normSq ((solve s mesh data).2._phis.getD j 0) < 1)
    (k : Nat) (hk : k < mesh.length) :
    (solve s mesh data).1 = .ok ()
      ∧ (ordered_product (solve s mesh data).2._phis (solve s mesh data).2._mesh
            (mesh.getD k 0) mesh.length).a01
          / (ordered_product (solve s mesh data).2._phis (solve s mesh data).2._mesh
            (mesh.getD k 0) mesh.length).a11
          = mobius (data.getD k 0)
      ∧ mobius (data.getD k 0)
          = (-(data.getD k 0) - complex_t.I) / (-(data.getD k 0) + complex_t.I)
      ∧ evaluate M_PI (solve s mesh data).2 [mesh.getD k 0]
          = .ok [1 / M_PI * (-(data.getD k 0)).im] := by
  obtain ⟨s', hs, hinv⟩ := solve_spec s mesh data hlen hM
  have e2 : (solve s mesh data).2 = s' := by rw [hs]
  have e1 : (solve s mesh data).1 = .ok () := by rw [hs]
  rw [e2] at hphi ⊢
  have hden' : ∀ j, j + 1 < mesh.length →
      (ordered_product s'._phis mesh (mesh.getD (j + 1) 0) (j + 1)).a10
          * (mobius_trasformation data).getD (j + 1) 0
        - (ordered_product s'._phis mesh (mesh.getD (j + 1) 0) (j + 1)).a00 ≠ 0 := by
    intro j hj
    rw [mobius_trasformation_getD data (j + 1) (by omega)]
    have := hden j hj
    rw [e2] at this
    exact this
  have hmesh : s'._mesh = mesh := hinv.2.2.1
  have hlenp : s'._phis.length = mesh.length := hinv.1
  have main := evaluate_theta_at_node s' mesh data hinv hupper hdist hden' hphi k hk
  rw [mobius_trasformation_getD data k (by omega)] at main
  refine ⟨e1, ?_, rfl, ?_⟩
  · rw [hmesh]
    exact main
  · rw [evaluate_spec M_PI s' [mesh.getD k 0] (by omega) (by rw [hmesh]; omega)]
    show Except.ok [spectral_value M_PI s'._phis s'._mesh (mesh.getD k 0)] = _
    rw [spectral_value, hlenp, hmesh]
    show Except.ok [1 / M_PI * (inverse_mobius _).im] = _
    rw [main, inverse_mobius_mobius _ (hmob k hk)]

/-- Instance of `evaluate_interpolates` on a concrete rational input: the samples
`(i, -2i)` and `(2i, -3i)` give `φ_0 = 1/3`, `φ_1 = 3/5`, and the value returned
at the query point `2i` is `(1/3)·Im(3i)` for `M_PI = 3`. -/
theorem evaluate_interpolates_witness :
    (solve (⟨[], [], []⟩ : solver ℚ) [⟨0, 1⟩, ⟨0, 2⟩] [⟨0, -2⟩, ⟨0, -3⟩]).1 = .ok ()
      ∧ evaluate (3 : ℚ)
          (solve (⟨[], [], []⟩ : solver ℚ) [⟨0, 1⟩, ⟨0, 2⟩] [⟨0, -2⟩, ⟨0, -3⟩]).2 [⟨0, 2⟩]
        = .ok [1 / 3 * (-(⟨0, -3⟩ : complex_t ℚ)).im] := by
  obtain ⟨s', hs, _, _, h3, h4, h5, _⟩ := solve_spec (⟨[], [], []⟩ : solver ℚ)
    [⟨0, 1⟩, ⟨0, 2⟩] [⟨0, -2⟩, ⟨0, -3⟩] (by decide) (by decide)
  have e2 : (solve (⟨[], [], []⟩ : solver ℚ) [⟨0, 1⟩, ⟨0, 2⟩] [⟨0, -2⟩, ⟨0, -3⟩]).2 = s' := by
    rw [hs]
  have p0 : s'._phis[0]? = some ⟨1 / 3, 0⟩ := by
    rw [h4]
    simp only [mobius_trasformation, List.map_cons, List.getElem?_cons_zero, Option.some.injEq]
    apply complex_t.ext_iff2.2
    constructor <;> norm_num [complex_t.div_re, complex_t.div_im]
  have d0 : (ordered_product s'._phis [⟨0, 1⟩, ⟨0, 2⟩] ⟨0, 2⟩ 1).a10
        * mobius (⟨0, -3⟩ : complex_t ℚ)
      - (ordered_product s'._phis [⟨0, 1⟩, ⟨0, 2⟩] ⟨0, 2⟩ 1).a00 = ⟨-5 / 18, 0⟩ := by
    apply complex_t.ext_iff2.2
    constructor <;>
      norm_num [ordered_product_succ, ordered_product, p0, mobius, complex_t.div_re,
        complex_t.div_im]
  have p1 : s'._phis[1]? = some ⟨3 / 5, 0⟩ := by
    rw [h5 0 (by decide), Option.some.injEq]
    apply complex_t.ext_iff2.2
    constructor <;>
      norm_num [next_parameter, ordered_product_succ, ordered_product, p0,
        mobius_trasformation, complex_t.div_re, complex_t.div_im]
  have h := evaluate_interpolates (3 : ℚ) (⟨[], [], []⟩ : solver ℚ) [⟨0, 1⟩, ⟨0, 2⟩]
    [⟨0, -2⟩, ⟨0, -3⟩] (by decide) (by decide)
    (fun j hj => by
      have hj2 : j < 2 := hj
      interval_cases j <;> norm_num)
    (fun i j hi hj hij => by
      have hi2 : i < 2 := hi
      have hj2 : j < 2 := hj
      intro h
      have him := congrArg complex_t.im h
      interval_cases i <;> interval_cases j <;> simp at hij him)
    (fun j hj => by
      have hj2 : j < 2 := hj
      intro h
      have him := congrArg complex_t.im h
      interval_cases j <;> norm_num at him)
    (fun j hj => by
      have hj0 : j = 0 := by
        have hj2 : j + 1 < 2 := hj
        omega
      subst hj0
      rw [e2]
      show (ordered_product s'._phis [⟨0, 1⟩, ⟨0, 2⟩] ⟨0, 2⟩ 1).a10
            * mobius (⟨0, -3⟩ : complex_t ℚ)
          - (ordered_product s'._phis [⟨0, 1⟩, ⟨0, 2⟩] ⟨0, 2⟩ 1).a00 ≠ 0
      rw [d0]
      intro h
      have := congrArg complex_t.re h
      norm_num at this)
    (fun j hj => by
      have hj2 : j < 2 := hj
      rw [e2, List.getD_eq_getElem?_getD]
      interval_cases j
      · rw [p0]
        norm_num [complex_t.normSq]
      · rw [p1]
        norm_num [complex_t.normSq])
    1 (by decide)
  exact ⟨h.1, h.2.2.2⟩

/-- C17: over the ideal reals, with the backend's `sqrt`, `cos`, `sin` the real
functions and `atan2 y x` the argument of `x + iy` in `(-π, π]` (zero at the
origin), `sqrt x = polar (sqrt |x|) (arg x / 2)` satisfies `sqrt x * sqrt x = x`
and has non-negative real part, where `|x| = sqrt (re² + im²)`,
`arg x = atan2 im re` and `polar r t = (r cos t, r sin t)`. -/
theorem sqrt_principal (x : complex_t ℝ) :
    complex_t.sqrt Real.sqrt Real.cos Real.sin (fun b a => Complex.arg ⟨a, b⟩) x
        = complex_t.polar Real.cos Real.sin
            (Real.sqrt (complex_t.abs Real.sqrt x))
            (complex_t.arg (fun b a => Complex.arg ⟨a, b⟩) x / 2)
      ∧ complex_t.abs Real.sqrt x = Real.sqrt (x.re * x.re + x.im * x.im)
      ∧ complex_t.arg (fun b a => Complex.arg ⟨a, b⟩) x = Complex.arg ⟨x.re, x.im⟩
      ∧ (∀ r t : ℝ, complex_t.polar Real.cos Real.sin r t
          = ⟨Real.cos t * r, Real.sin t * r⟩)
      ∧ complex_t.sqrt Real.sqrt Real.cos Real.sin (fun b a => Complex.arg ⟨a, b⟩) x
          * complex_t.sqrt Real.sqrt Real.cos Real.sin (fun b a => Complex.arg ⟨a, b⟩) x = x
      ∧ 0 ≤ (complex_t.sqrt Real.sqrt Real.cos Real.sin
          (fun b a => Complex.arg ⟨a, b⟩) x).re := by
  refine ⟨rfl, rfl, rfl, fun _ _ => rfl, ?_, ?_⟩
  · have habs : Complex.abs ⟨x.re, x.im⟩ = Real.sqrt (x.re * x.re + x.im * x.im) := by
      rw [Complex.abs_apply, Complex.normSq_mk]
    have hre := Complex.abs_mul_cos_arg ⟨x.re, x.im⟩
    have him := Complex.abs_mul_sin_arg ⟨x.re, x.im⟩
    rw [habs] at hre him
    simp only at hre him
    have hs : Real.sqrt (Real.sqrt (x.re * x.re + x.im * x.im))
        * Real.sqrt (Real.sqrt (x.re * x.re + x.im * x.im))
        = Real.sqrt (x.re * x.re + x.im * x.im) :=
      Real.mul_self_sqrt (Real.sqrt_nonneg _)
    have hc := Real.cos_two_mul (Complex.arg ⟨x.re, x.im⟩ / 2)
    have hsn := Real.sin_two_mul (Complex.arg ⟨x.re, x.im⟩ / 2)
    have hcs := Real.sin_sq_add_cos_sq (Complex.arg ⟨x.re, x.im⟩ / 2)
    rw [mul_div_cancel₀ _ (two_ne_zero : (2 : ℝ) ≠ 0)] at hc hsn
    rw [hc] at hre
    rw [hsn] at him
    apply complex_t.ext_iff2.2
    simp only [complex_t.sqrt, complex_t.polar, complex_t.abs, complex_t.arg,
      complex_t.mul_re, complex_t.mul_im]
    constructor
    · linear_combination hre
        + (Real.cos (Complex.arg ⟨x.re, x.im⟩ / 2) ^ 2
            - Real.sin (Complex.arg ⟨x.re, x.im⟩ / 2) ^ 2) * hs
        - Real.sqrt (x.re * x.re + x.im * x.im) * hcs
    · linear_combination him
        + (2 * Real.sin (Complex.arg ⟨x.re, x.im⟩ / 2)
            * Real.cos (Complex.arg ⟨x.re, x.im⟩ / 2)) * hs
  · show 0 ≤ Real.cos (Complex.arg ⟨x.re, x.im⟩ / 2)
        * Real.sqrt (Real.sqrt (x.re * x.re + x.im * x.im))
    have h1 := Complex.neg_pi_lt_arg ⟨x.re, x.im⟩
    have h2 := Complex.arg_le_pi ⟨x.re, x.im⟩
    exact mul_nonneg
      (Real.cos_nonneg_of_mem_Icc ⟨by linarith, by linarith⟩)
      (Real.sqrt_nonneg _)

/-- C14 (code evaluated at a failing input): on the three-point bosonic Matsubara
mesh `[-2i, 0, 2i]` with `positive_only = false`, two points have `Im ≥ 0` but the
arrays are allocated with `N = 3 / 2 = 1` entries, so the second write
(`data(1)`) falls outside the arrays and no mesh or data is passed on to the
array form of `solve`; on the four-point fermionic mesh `[-3i, -i, i, 3i]` the
same code passes exactly the two points with `Im ≥ 0` and their values. -/
theorem solve_gf_odd_mesh_out_of_range :
    (([⟨0, -2⟩, ⟨0, 0⟩, ⟨0, 2⟩] : List (complex_t ℚ)).filter
        (fun p => decide (¬ p.im < 0))).length = 2
      ∧ ([⟨0, -2⟩, ⟨0, 0⟩, ⟨0, 2⟩] : List (complex_t ℚ)).length / 2 = 1
      ∧ solve_gf_arrays (⟨[⟨0, -2⟩, ⟨0, 0⟩, ⟨0, 2⟩], false, [⟨1, 2⟩, ⟨-1, 0⟩, ⟨1, -2⟩]⟩ :
          gf_imfreq ℚ) = .error .out_of_range
      ∧ (∀ s : solver ℚ,
          solve_gf s ⟨[⟨0, -2⟩, ⟨0, 0⟩, ⟨0, 2⟩], false, [⟨1, 2⟩, ⟨-1, 0⟩, ⟨1, -2⟩]⟩
            = (.error .out_of_range, s))
      ∧ solve_gf_arrays (⟨[⟨0, -3⟩, ⟨0, -1⟩, ⟨0, 1⟩, ⟨0, 3⟩], false,
          [⟨1, 3⟩, ⟨1, 2⟩, ⟨1, -2⟩, ⟨1, -3⟩]⟩ : gf_imfreq ℚ)
        = .ok ([⟨1, -2⟩, ⟨1, -3⟩], [⟨0, 1⟩, ⟨0, 3⟩]) := by
  have h : solve_gf_arrays (⟨[⟨0, -2⟩, ⟨0, 0⟩, ⟨0, 2⟩], false, [⟨1, 2⟩, ⟨-1, 0⟩, ⟨1, -2⟩]⟩ :
      gf_imfreq ℚ) = .error .out_of_range := by
    simp [solve_gf_arrays, solve_gf_loop, read, write, bind, Except.bind]
  refine ⟨?_, by decide, h, ?_, ?_⟩
  · simp [List.filter]
  · intro s
    rw [solve_gf, h]
  · norm_num [solve_gf_arrays, solve_gf_loop, read, write, bind, Except.bind]
    exact ⟨rfl, rfl⟩

end claims

end Nevanlinna
